import Mathlib

/-!
# lightsout: grid model, layout and frame loop of `src/main.cpp`

A shallow embedding of the program's `setup_game_state`, `poke`, `setup_layout`
and of the body of the main loop, followed by the properties proved about them.

Conventions of the embedding.

* C arrays (`state`, `connections`, `vertex_buffer`, `color_buffer`) are lists; a
  read is `List.getD _ _ 0`, a write is `List.set`.
* `int` values are `Nat`/`Int` without wrap-around (signed overflow is undefined in
  C); `unsigned int` values are reduced modulo `2 ^ 32` where the source computes
  them.  The theorems that need it assume that the number of cells fits the type.
* `unsigned char` cells are `Nat`; the only operation on them is `^= b` with
  `b ∈ {0, 1}`, which cannot leave the byte range.
* `float` is modelled by `ℚ`: arithmetic is taken exactly.
-/

namespace LightsOut

/-! ## Machine integers -/

/-- Conversion of an `int` value to `unsigned int`. -/
def toU32 (n : Int) : Nat := (n % 2 ^ 32).toNat

/-! ## `setup_game_state` -/

/-- Body of the innermost loop of `setup_game_state` (lines 120-126) for one offset
`(dx, dy)`.  The accumulator is the table `csptr` and the slot counter `i`. -/
def connect_offset (cells_x cells_y x y : Nat) (dx dy : Int) (acc : List Nat × Nat) :
    List Nat × Nat :=
  if dx.natAbs + dy.natAbs ≠ 1 then acc
  else
    let nx : Int := (x : Int) + dx
    let ny : Int := (y : Int) + dy
    let ns : Nat := toU32 (nx * (cells_y : Int) + ny)
    if 0 ≤ nx ∧ nx < (cells_x : Int) ∧ 0 ≤ ny ∧ ny < (cells_y : Int) then
      (acc.1.set ((x * cells_y + y) * 4 + acc.2) ((ns <<< 1 ||| 1) % 2 ^ 32), acc.2 + 1)
    else acc

/-- Body of the `y` loop of `setup_game_state` (lines 115-128): fills the four slots
of cell `(x, y)`, `dx` and `dy` running over `-1, 0, 1`. -/
def connect_cell (cells_x cells_y x y : Nat) (csptr : List Nat) : List Nat :=
  (([-1, 0, 1] : List Int).foldl
    (fun acc dx => ([-1, 0, 1] : List Int).foldl
      (fun acc dy => connect_offset cells_x cells_y x y dx dy acc) acc)
    (csptr, 0)).1

/-- The source's `setup_game_state`: the zeroed `state` array and the `connections`
table, four slots per cell. -/
def setup_game_state (cells_x cells_y : Nat) : List Nat × List Nat :=
  let num_cells := cells_x * cells_y
  let state := List.replicate num_cells 0
  let csptr := List.replicate (num_cells * 4) 0
  (state,
   (List.range cells_x).foldl
     (fun cs x => (List.range cells_y).foldl
       (fun cs y => connect_cell cells_x cells_y x y cs) cs)
     csptr)

/-! ## `poke` -/

/-- One round `state[cs[n] >> 1] ^= 1 & cs[n]` of the loop of `poke`. -/
def poke_slot (i : Nat) (connections : List Nat) (state : List Nat) (n : Nat) : List Nat :=
  let c := connections.getD (i * 4 + n) 0
  state.set (c >>> 1) (state.getD (c >>> 1) 0 ^^^ (1 &&& c))

/-- The source's `poke`. -/
def poke (i : Nat) (state connections : List Nat) : List Nat :=
  (List.range 4).foldl (poke_slot i connections) (state.set i (state.getD i 0 ^^^ 1))

/-- Function `poke i` applied `n` times. -/
def poke_times (n i : Nat) (state connections : List Nat) : List Nat :=
  Nat.iterate (fun st => poke i st connections) n state

/-- A cell is lit when its byte is non-zero (`board_state[si] ? 255 : 0`). -/
def lit (b : Nat) : Bool := b != 0

/-- The neighbours recorded for cell `i`: the entries of its four slots whose flag
bit is set, with the flag shifted out. -/
def neighbours (connections : List Nat) (i : Nat) : List Nat :=
  ((List.range 4).filter (fun n => connections.getD (i * 4 + n) 0 &&& 1 = 1)).map
    (fun n => connections.getD (i * 4 + n) 0 >>> 1)

/-! ## `SDL_memcpy` -/

/-- The source's `SDL_memcpy(&dst[off], src, sizeof src)` on arrays of elements. -/
def memcpy {α : Type} : List α → Nat → List α → List α
  | dst, _, [] => dst
  | dst, off, v :: vs => memcpy (dst.set off v) (off + 1) vs

/-! ## `setup_layout` -/

/-- The four out-parameters of `setup_layout`. -/
structure Layout where
  cell_width : ℚ
  cell_height : ℚ
  pad_x : ℚ
  pad_y : ℚ
deriving DecidableEq

/-- Offset `vsi` of the vertices of cell `(i, j)` (line 87): computed in `int`,
stored in an `unsigned int`. -/
def vertex_offset (cells_y i j : Nat) : Nat :=
  toU32 (((i * cells_y * 2 * 6 + j * 2 * 6 : Nat) : Int))

/-- The array `vs` of lines 89-97. -/
def cell_vertices (x y w h : ℚ) : List ℚ :=
  [x, y + h,      -- bl
   x + w, y + h,  -- br
   x + w, y,      -- tr
   x, y + h,      -- bl
   x + w, y,      -- tr
   x, y]          -- tl

/-- Body of the inner loop of `setup_layout` (lines 81-98). -/
def layout_cell (cells_y : Nat) (cell_width cell_height pad_x pad_y : ℚ) (i j : Nat)
    (vertex_buffer : List ℚ) : List ℚ :=
  let x := (cell_width + pad_x) * (i : ℚ)
  let y := (cell_height + pad_y) * (j : ℚ)
  let w := cell_width
  let h := cell_height
  memcpy vertex_buffer (vertex_offset cells_y i j) (cell_vertices x y w h)

/-- The source's `setup_layout`: the layout values and the rewritten vertex buffer. -/
def setup_layout (w h : Nat) (cells_x cells_y : Nat) (vertex_buffer : List ℚ) :
    Layout × List ℚ :=
  let play_area : ℚ := ((if w > h then h else w : Nat) : ℚ)
  let play_w := play_area
  let play_h := play_area
  let pad_x : ℚ := 5
  let pad_y : ℚ := 5
  let play_x1 := play_w - pad_x * (((cells_x : Int) - 1 : Int) : ℚ)
  let play_y1 := play_h - pad_y * (((cells_y : Int) - 1 : Int) : ℚ)
  let cell_width := play_x1 / (cells_x : ℚ)
  let cell_height := play_y1 / (cells_y : ℚ)
  (⟨cell_width, cell_height, pad_x, pad_y⟩,
   (List.range cells_x).foldl
     (fun vb i => (List.range cells_y).foldl
       (fun vb j => layout_cell cells_y cell_width cell_height pad_x pad_y i j vb) vb)
     vertex_buffer)

/-! ## The main loop -/

/-- The hover test of lines 247-248 for cell `(i, j)`, the pointer coordinates already
converted to `float`. -/
def hover_test (lay : Layout) (mouse_x mouse_y : ℚ) (i j : Nat) : Bool :=
  let x := (lay.cell_width + lay.pad_x) * (i : ℚ)
  let y := (lay.cell_height + lay.pad_y) * (j : ℚ)
  let w := lay.cell_width
  let h := lay.cell_height
  decide (mouse_x ≥ x ∧ mouse_x ≤ x + w ∧ mouse_y ≥ y ∧ mouse_y ≤ y + h)

/-- The variables the colour loop of `main` (lines 237-268) writes.  Field `pokes` is
a ghost variable: the arguments of the calls of `poke` made so far, in order. -/
structure Scene where
  board_state : List Nat
  mouse_pressed : Int
  color_buffer : List Nat
  pokes : List Nat
deriving DecidableEq

/-- Index `si` of cell `(i, j)` (line 239): computed in `int`, stored in an
`unsigned int`. -/
def cell_index (cells_y i j : Nat) : Nat := toU32 (((i * cells_y + j : Nat) : Int))

/-- Byte offset `(si * 6 * 4) + (v * 4)` of vertex `v` of cell `si` in the colour
buffer (line 265), in `unsigned int` arithmetic. -/
def color_offset (si v : Nat) : Nat := (si * 6 * 4 + v * 4) % 2 ^ 32

/-- Body of the inner colour loop (lines 239-266) for cell `(i, j)`. -/
def update_cell (cells_y : Nat) (connections : List Nat) (lay : Layout)
    (mouse_x mouse_y : Int) (i j : Nat) (sc : Scene) : Scene :=
  let si : Nat := cell_index cells_y i j
  let hovered : Bool := hover_test lay (mouse_x : ℚ) (mouse_y : ℚ) i j
  let sc1 : Scene :=
    if hovered = true ∧ sc.mouse_pressed ≠ 0 then
      { sc with
        mouse_pressed := 0
        board_state := poke si sc.board_state connections
        pokes := sc.pokes ++ [si] }
    else sc
  let color : List Nat :=
    [if hovered then 155 else 0,
     if sc1.board_state.getD si 0 ≠ 0 then 255 else 0,
     if hovered then 0 else 155,
     255]
  { sc1 with
    color_buffer := (List.range 6).foldl
      (fun cb v => memcpy cb (color_offset si v) color) sc1.color_buffer }

/-- The colour loop of `main` (lines 237-268). -/
def update_scene (cells_x cells_y : Nat) (connections : List Nat) (lay : Layout)
    (mouse_x mouse_y : Int) (sc : Scene) : Scene :=
  (List.range cells_x).foldl
    (fun sc i => (List.range cells_y).foldl
      (fun sc j => update_cell cells_y connections lay mouse_x mouse_y i j sc) sc)
    sc

/-- The events the `switch` of lines 291-334 distinguishes.  `key_down f` carries
whether the key is `SDLK_f`; `size_changed` and `window_close` are window events of
this window; every other event is `other`. -/
inductive Event where
  | quit
  | mouse_button_down
  | mouse_button_up
  | key_down (is_f : Bool)
  | size_changed (w h : Nat)
  | window_close
  | other
deriving DecidableEq

/-- The variables of `main` that live across iterations of the main loop. -/
structure Game where
  window_width : Nat
  window_height : Nat
  cells_x : Nat
  cells_y : Nat
  board_state : List Nat
  connections : List Nat
  layout : Layout
  vertex_buffer : List ℚ
  color_buffer : List Nat
  quit : Int
  fullscreen : Int
  mouse_x : Int
  mouse_y : Int
  mouse_down : Int
  mouse_pressed : Int
deriving DecidableEq

/-- One round of the `switch` of lines 291-334.  `SDL_WINDOWEVENT_CLOSE` pushes an
`SDL_QUIT` event, which the same polling loop then handles: it is modelled by its
effect, `quit = 1`. -/
def handle_event (g : Game) : Event → Game
  | Event.quit => { g with quit := 1 }
  | Event.mouse_button_down => { g with mouse_down := 1 }
  | Event.mouse_button_up => { g with mouse_pressed := 1, mouse_down := 0 }
  | Event.key_down is_f =>
    if is_f then
      if g.fullscreen ≠ 0 then { g with fullscreen := 0 } else { g with fullscreen := 1 }
    else g
  | Event.size_changed w h =>
    let r := setup_layout w h g.cells_x g.cells_y g.vertex_buffer
    { g with window_width := w, window_height := h, layout := r.1, vertex_buffer := r.2 }
  | Event.window_close => { g with quit := 1 }
  | Event.other => g

/-- What the backend delivers at the end of one iteration: the pointer position read
by `SDL_GetMouseState` and the queue emptied by `SDL_PollEvent`. -/
structure Input where
  mouse_x : Int
  mouse_y : Int
  events : List Event
deriving DecidableEq

/-- The scene a loop iteration starts from. -/
def Game.scene (g : Game) : Scene :=
  ⟨g.board_state, g.mouse_pressed, g.color_buffer, []⟩

/-- The colour loop run on the variables of `main`. -/
def Game.update (g : Game) : Scene :=
  update_scene g.cells_x g.cells_y g.connections g.layout g.mouse_x g.mouse_y g.scene

/-- One iteration of the main loop (lines 231-335): colour loop (with the toggle
dispatch inside), then pointer sampling and event polling. -/
def iteration (g : Game) (inp : Input) : Game :=
  let sc := g.update
  let g1 : Game :=
    { g with
      board_state := sc.board_state
      mouse_pressed := sc.mouse_pressed
      color_buffer := sc.color_buffer }
  let g2 : Game := { g1 with mouse_x := inp.mouse_x, mouse_y := inp.mouse_y }
  inp.events.foldl handle_event g2

/-- The state of `main` when the main loop is entered (lines 141-229): a 600x600
window, a 5x5 grid.  The two buffers are `SDL_malloc`ed; they are overwritten before
they are read, and start as zeros here. -/
def init : Game :=
  let cells_x := 5
  let cells_y := 5
  let num_cells := cells_x * cells_y
  let num_vertices := num_cells * 6
  let gs := setup_game_state cells_x cells_y
  let lo := setup_layout 600 600 cells_x cells_y (List.replicate (num_vertices * 2) 0)
  { window_width := 600
    window_height := 600
    cells_x := cells_x
    cells_y := cells_y
    board_state := gs.1
    connections := gs.2
    layout := lo.1
    vertex_buffer := lo.2
    color_buffer := List.replicate (num_vertices * 4) 0
    quit := 0
    fullscreen := 0
    mouse_x := 0
    mouse_y := 0
    mouse_down := 0
    mouse_pressed := 0 }

/-- The main loop run on a list of inputs, one per iteration, for as long as
`quit` is 0. -/
def run (g : Game) : List Input → Game
  | [] => g
  | inp :: rest => if g.quit ≠ 0 then g else run (iteration g inp) rest

/-- The states the main loop can be in at the start of an iteration. -/
def Reachable (g : Game) : Prop := ∃ inputs : List Input, g = run init inputs

/-- The toggles dispatched by the iterations of the main loop run on a list of
inputs, in order (ghost trace). -/
def poke_trace (g : Game) : List Input → List Nat
  | [] => []
  | inp :: rest => g.update.pokes ++ poke_trace (iteration g inp) rest

/-! ## Scenarios on the program as `main` configures it -/

/-- A full click (press and release polled in one iteration) with the pointer at
`(118, 50)`, in the padding between the first two columns (`116 < 118 < 121`). -/
def click_in_padding : Input := ⟨118, 50, [Event.mouse_button_down, Event.mouse_button_up]⟩

/-- The pointer moves to `(50, 50)`, inside cell 0, and the button goes down. -/
def press_on_cell : Input := ⟨50, 50, [Event.mouse_button_down]⟩

/-- The button is released with the pointer still at `(50, 50)`. -/
def release_on_cell : Input := ⟨50, 50, [Event.mouse_button_up]⟩

/-- Two full press-release cycles polled in one iteration, the pointer at `(50, 50)`,
inside cell 0. -/
def double_click_on_cell : Input :=
  ⟨50, 50, [Event.mouse_button_down, Event.mouse_button_up,
    Event.mouse_button_down, Event.mouse_button_up]⟩

/-- A full click with the pointer at `(300, 300)`, inside the centre cell `(2, 2)`,
index 12. -/
def click_centre : Input := ⟨300, 300, [Event.mouse_button_down, Event.mouse_button_up]⟩

/-! ## Specification-side definitions -/

/-- Indices of the in-grid orthogonal neighbours of `(x, y)`, in the order the
loops of `setup_game_state` visit them. -/
def nbr_indices (W H x y : Nat) : List Nat :=
  (if 1 ≤ x then [(x - 1) * H + y] else []) ++
  ((if 1 ≤ y then [x * H + y - 1] else []) ++
  ((if y + 1 < H then [x * H + y + 1] else []) ++
  (if x + 1 < W then [(x + 1) * H + y] else [])))

/-- Content of slot `n` of cell `s` in the finished table. -/
def slot_value (W H s n : Nat) : Nat :=
  ((nbr_indices W H (s / H) (s % H)).map (fun m => 2 * m + 1)).getD n 0

/-- Invariant of the two outer loops of `setup_game_state`: the first `k` cells (in
scan order) have their slots filled, the others are still zero. -/
def table_inv (W H k : Nat) (T : List Nat) : Prop :=
  T.length = W * H * 4 ∧
  ∀ p, p < W * H * 4 → T.getD p 0 = if p / 4 < k then slot_value W H (p / 4) (p % 4) else 0

/-- Value the finished vertex buffer holds in slot `p`. -/
def vertex_value (cy : Nat) (lay : Layout) (p : Nat) : ℚ :=
  (cell_vertices ((lay.cell_width + lay.pad_x) * ((p / 12 / cy : Nat) : ℚ))
      ((lay.cell_height + lay.pad_y) * ((p / 12 % cy : Nat) : ℚ))
      lay.cell_width lay.cell_height).getD (p % 12) 0

/-- Invariant of the loops of `setup_layout`: the slots of the first `k` cells hold
their final values. -/
def vertex_inv (cx cy : Nat) (lay : Layout) (k : Nat) (vb : List ℚ) : Prop :=
  vb.length = cx * cy * 12 ∧ ∀ p, p < k * 12 → vb.getD p 0 = vertex_value cy lay p

/-- Hover flag of the cell with index `c`. -/
def cell_hovered (cy : Nat) (lay : Layout) (mx my : Int) (c : Nat) : Bool :=
  hover_test lay (mx : ℚ) (my : ℚ) (c / cy) (c % cy)

/-- The toggle dispatched while the colour loop scans the first `k` cells, if any:
the first hovered cell among them, provided `mouse_pressed` was set on entry. -/
def dispatched (cy : Nat) (lay : Layout) (mx my : Int) (mp0 : Int) (k : Nat) : Option Nat :=
  if mp0 ≠ 0 then (List.range k).find? (cell_hovered cy lay mx my) else none

/-- The board after the dispatch `d`. -/
def board_after (conns board0 : List Nat) : Option Nat → List Nat
  | none => board0
  | some t => poke t board0 conns

/-- The RGBA quadruple of a cell with hover flag `hov` and state byte `b`. -/
def cell_color (hov : Bool) (b : Nat) : List Nat :=
  [if hov then 155 else 0, if b ≠ 0 then 255 else 0, if hov then 0 else 155, 255]

/-- Invariant of the colour loop after `k` cells, `sc0` being the scene on entry. -/
def scene_inv (cy : Nat) (conns : List Nat) (lay : Layout) (mx my : Int) (sc0 : Scene)
    (k : Nat) (sc : Scene) : Prop :=
  sc.pokes = sc0.pokes ++ (dispatched cy lay mx my sc0.mouse_pressed k).toList ∧
  sc.board_state = board_after conns sc0.board_state (dispatched cy lay mx my sc0.mouse_pressed k) ∧
  sc.mouse_pressed =
    (if (dispatched cy lay mx my sc0.mouse_pressed k).isSome then 0 else sc0.mouse_pressed) ∧
  sc.color_buffer.length = sc0.color_buffer.length ∧
  ∀ p, p < k * 24 → p < sc0.color_buffer.length →
    sc.color_buffer.getD p 0 =
      (cell_color (cell_hovered cy lay mx my (p / 24))
        ((board_after conns sc0.board_state
          (dispatched cy lay mx my sc0.mouse_pressed (p / 24 + 1))).getD (p / 24) 0)).getD (p % 4) 0

/-! # Theorems -/

/-! ## Arrays, loops and index arithmetic -/

theorem getD_set {α : Type} (l : List α) (m k : Nat) (v d : α) (hk : k < l.length) :
    (l.set m v).getD k d = if m = k then v else l.getD k d := by
  simp only [List.getD_eq_getElem?_getD, List.getElem?_set]
  by_cases h : m = k
  · subst h; simp [hk]
  · simp [h]

theorem memcpy_length {α : Type} (src : List α) : ∀ (dst : List α) (off : Nat),
    (memcpy dst off src).length = dst.length := by
  induction src with
  | nil => intro dst off; rfl
  | cons v vs ih => intro dst off; simp [memcpy, ih]

theorem memcpy_getD {α : Type} (d : α) (src : List α) : ∀ (dst : List α) (off p : Nat),
    p < dst.length →
    (memcpy dst off src).getD p d =
      if off ≤ p ∧ p < off + src.length then src.getD (p - off) d else dst.getD p d := by
  induction src with
  | nil =>
    intro dst off p _
    have h : ¬ (off ≤ p ∧ p < off + ([] : List α).length) := by
      simp only [List.length_nil]; omega
    rw [if_neg h]; rfl
  | cons v vs ih =>
    intro dst off p hp
    rw [memcpy, ih _ _ _ (by simpa using hp), getD_set _ _ _ _ _ hp]
    by_cases h1 : off = p
    · subst h1; simp
    · by_cases h2 : off + 1 ≤ p ∧ p < off + 1 + vs.length
      · have h3 : off ≤ p ∧ p < off + (v :: vs).length := by
          simp only [List.length_cons]; omega
        rw [if_pos h2, if_pos h3]
        obtain ⟨q, hq⟩ : ∃ q, p - off = q + 1 := ⟨p - off - 1, by omega⟩
        have : p - (off + 1) = q := by omega
        rw [hq, this]; simp
      · have h3 : ¬ (off ≤ p ∧ p < off + (v :: vs).length) := by
          simp only [List.length_cons]; omega
        rw [if_neg h2, if_neg h3, if_neg h1]

theorem take_drop_eq_of_getD {α : Type} (d : α) (l r : List α) (off : Nat)
    (hb : off + r.length ≤ l.length)
    (h : ∀ t, t < r.length → l.getD (off + t) d = r.getD t d) :
    (l.drop off).take r.length = r := by
  apply List.ext_getElem
  · simp only [List.length_take, List.length_drop]
    omega
  · intro t h1 h2
    have hv := h t h2
    rw [List.getD_eq_getElem?_getD, List.getD_eq_getElem?_getD,
      List.getElem?_eq_getElem (by omega), List.getElem?_eq_getElem h2] at hv
    simp only [Option.getD_some] at hv
    rw [List.getElem_take, List.getElem_drop]
    exact hv

/-- Loop rule for `for (k = 0; k < n; k++)`: an invariant indexed by the counter. -/
theorem foldl_range_inv {σ : Type} (f : σ → Nat → σ) (P : Nat → σ → Prop) (n : Nat) (s0 : σ)
    (h0 : P 0 s0) (hstep : ∀ k s, k < n → P k s → P (k + 1) (f s k)) :
    P n ((List.range n).foldl f s0) := by
  induction n with
  | zero => simpa using h0
  | succ m ih =>
    rw [List.range_succ, List.foldl_append]
    simp only [List.foldl]
    apply hstep m _ (Nat.lt_succ_self m)
    exact ih (fun k s hk hP => hstep k s (Nat.lt_succ_of_lt hk) hP)

/-- Nested loop rule: scanning the cells `(i, j)` in the order of the two `for` loops
is scanning the cell indices `k = i * cells_y + j` in increasing order. -/
theorem scan_inv {σ : Type} (f : Nat → Nat → σ → σ) (P : Nat → σ → Prop) (cx cy : Nat) (s0 : σ)
    (h0 : P 0 s0)
    (hstep : ∀ i j s, i < cx → j < cy → P (i * cy + j) s → P (i * cy + j + 1) (f i j s)) :
    P (cx * cy) ((List.range cx).foldl
      (fun s i => (List.range cy).foldl (fun s j => f i j s) s) s0) := by
  apply foldl_range_inv _ (fun i s => P (i * cy) s)
  · simpa using h0
  · intro i s hi hP
    have : (i + 1) * cy = i * cy + cy := by ring
    rw [this]
    apply foldl_range_inv _ (fun j s => P (i * cy + j) s)
    · simpa using hP
    · intro j s2 hj hP2
      exact hstep i j s2 hi hj hP2

theorem idx_lt {W H x y : Nat} (hx : x < W) (hy : y < H) : x * H + y < W * H := by
  have : (x + 1) * H ≤ W * H := Nat.mul_le_mul_right H hx
  have h2 : (x + 1) * H = x * H + H := by ring
  omega

theorem idx_div {H x y : Nat} (hy : y < H) : (x * H + y) / H = x := by
  apply Nat.div_eq_of_lt_le
  · omega
  · have : (x + 1) * H = x * H + H := by ring
    omega

theorem idx_mod {H x y : Nat} (hy : y < H) : (x * H + y) % H = y := by
  rw [Nat.add_comm, Nat.add_mul_mod_self_right, Nat.mod_eq_of_lt hy]

theorem idx_inj_iff {H x y x' y' : Nat} (hy : y < H) (hy' : y' < H) :
    x' * H + y' = x * H + y ↔ x' = x ∧ y' = y := by
  constructor
  · intro h
    have h1 := congrArg (fun t => t / H) h
    have h2 := congrArg (fun t => t % H) h
    simp only [idx_div hy, idx_div hy', idx_mod hy, idx_mod hy'] at h1 h2
    exact ⟨h1, h2⟩
  · rintro ⟨rfl, rfl⟩; rfl

theorem cell_coords {W H i : Nat} (hi : i < W * H) :
    i / H < W ∧ i % H < H ∧ i / H * H + i % H = i := by
  have hH : 0 < H := by
    rcases Nat.eq_zero_or_pos H with h | h
    · subst h; simp at hi
    · exact h
  refine ⟨Nat.div_lt_of_lt_mul (by rwa [Nat.mul_comm] at hi), Nat.mod_lt _ hH, ?_⟩
  rw [Nat.mul_comm]
  exact Nat.div_add_mod i H

theorem toU32_natCast (m : Nat) (h : m < 2 ^ 32) : toU32 (m : Int) = m := by
  unfold toU32
  rw [Int.emod_eq_of_lt (by omega) (by omega)]
  simp

/-! ## The grid: `setup_game_state` and `poke` -/

theorem enc_eq (m : Nat) (h : m < 2 ^ 31) : (m <<< 1 ||| 1) % 2 ^ 32 = 2 * m + 1 := by
  have : (m <<< 1 ||| 1) = 2 * m + 1 := by
    rw [Nat.shiftLeft_eq, pow_one, Nat.mul_comm, ← pow_one 2,
      ← Nat.mul_add_lt_is_or (by norm_num)]
  rw [this]
  apply Nat.mod_eq_of_lt
  omega

theorem enc_shift (m : Nat) : (2 * m + 1) >>> 1 = m := by
  rw [Nat.shiftRight_eq_div_pow]; omega

theorem enc_flag (m : Nat) : 1 &&& (2 * m + 1) = 1 := by
  rw [Nat.and_comm, Nat.and_one_is_mod]; omega

theorem connect_offset_skip (W H x y : Nat) (dx dy : Int) (acc : List Nat × Nat)
    (h : dx.natAbs + dy.natAbs ≠ 1) : connect_offset W H x y dx dy acc = acc := by
  unfold connect_offset; rw [if_pos h]

theorem connect_offset_left (W H x y : Nat) (acc : List Nat × Nat)
    (hx : x < W) (hy : y < H) (hsz : W * H < 2 ^ 31) :
    connect_offset W H x y (-1) 0 acc =
      if 1 ≤ x then (acc.1.set ((x * H + y) * 4 + acc.2) (2 * ((x - 1) * H + y) + 1), acc.2 + 1)
      else acc := by
  unfold connect_offset
  rw [if_neg (by decide)]
  by_cases h : 1 ≤ x
  · have hr : (0 : Int) ≤ (x : Int) + -1 ∧ (x : Int) + -1 < (W : Int) ∧
        (0 : Int) ≤ (y : Int) + 0 ∧ (y : Int) + 0 < (H : Int) := by omega
    have hlt : (x - 1) * H + y < W * H := idx_lt (by omega) hy
    have hc : ((x : Int) + -1) * (H : Int) + ((y : Int) + 0) = (((x - 1) * H + y : Nat) : Int) := by
      push_cast [Nat.cast_sub h]; ring
    simp only [hr, and_self, if_true, hc, h]
    rw [toU32_natCast _ (by omega), enc_eq _ (by omega)]
  · have hr : ¬ ((0 : Int) ≤ (x : Int) + -1 ∧ (x : Int) + -1 < (W : Int) ∧
        (0 : Int) ≤ (y : Int) + 0 ∧ (y : Int) + 0 < (H : Int)) := by omega
    simp only [hr, if_false, h]

theorem connect_offset_up (W H x y : Nat) (acc : List Nat × Nat)
    (hx : x < W) (hy : y < H) (hsz : W * H < 2 ^ 31) :
    connect_offset W H x y 0 (-1) acc =
      if 1 ≤ y then (acc.1.set ((x * H + y) * 4 + acc.2) (2 * (x * H + y - 1) + 1), acc.2 + 1)
      else acc := by
  unfold connect_offset
  rw [if_neg (by decide)]
  by_cases h : 1 ≤ y
  · have hr : (0 : Int) ≤ (x : Int) + 0 ∧ (x : Int) + 0 < (W : Int) ∧
        (0 : Int) ≤ (y : Int) + -1 ∧ (y : Int) + -1 < (H : Int) := by omega
    have hlt : x * H + y < W * H := idx_lt hx hy
    have hc : ((x : Int) + 0) * (H : Int) + ((y : Int) + -1) = ((x * H + y - 1 : Nat) : Int) := by
      have : 1 ≤ x * H + y := by omega
      push_cast [Nat.cast_sub this]; ring
    simp only [hr, and_self, if_true, hc, h]
    rw [toU32_natCast _ (by omega), enc_eq _ (by omega)]
  · have hr : ¬ ((0 : Int) ≤ (x : Int) + 0 ∧ (x : Int) + 0 < (W : Int) ∧
        (0 : Int) ≤ (y : Int) + -1 ∧ (y : Int) + -1 < (H : Int)) := by omega
    simp only [hr, if_false, h]

theorem connect_offset_down (W H x y : Nat) (acc : List Nat × Nat)
    (hx : x < W) (hy : y < H) (hsz : W * H < 2 ^ 31) :
    connect_offset W H x y 0 1 acc =
      if y + 1 < H then (acc.1.set ((x * H + y) * 4 + acc.2) (2 * (x * H + y + 1) + 1), acc.2 + 1)
      else acc := by
  unfold connect_offset
  rw [if_neg (by decide)]
  by_cases h : y + 1 < H
  · have hr : (0 : Int) ≤ (x : Int) + 0 ∧ (x : Int) + 0 < (W : Int) ∧
        (0 : Int) ≤ (y : Int) + 1 ∧ (y : Int) + 1 < (H : Int) := by omega
    have hlt : x * H + (y + 1) < W * H := idx_lt hx h
    have hc : ((x : Int) + 0) * (H : Int) + ((y : Int) + 1) = ((x * H + y + 1 : Nat) : Int) := by
      push_cast; ring
    simp only [hr, and_self, if_true, hc, h]
    rw [toU32_natCast _ (by omega), enc_eq _ (by omega)]
  · have hr : ¬ ((0 : Int) ≤ (x : Int) + 0 ∧ (x : Int) + 0 < (W : Int) ∧
        (0 : Int) ≤ (y : Int) + 1 ∧ (y : Int) + 1 < (H : Int)) := by omega
    simp only [hr, if_false, h]

theorem connect_offset_right (W H x y : Nat) (acc : List Nat × Nat)
    (hx : x < W) (hy : y < H) (hsz : W * H < 2 ^ 31) :
    connect_offset W H x y 1 0 acc =
      if x + 1 < W then (acc.1.set ((x * H + y) * 4 + acc.2) (2 * ((x + 1) * H + y) + 1), acc.2 + 1)
      else acc := by
  unfold connect_offset
  rw [if_neg (by decide)]
  by_cases h : x + 1 < W
  · have hr : (0 : Int) ≤ (x : Int) + 1 ∧ (x : Int) + 1 < (W : Int) ∧
        (0 : Int) ≤ (y : Int) + 0 ∧ (y : Int) + 0 < (H : Int) := by omega
    have hlt : (x + 1) * H + y < W * H := idx_lt h hy
    have hc : ((x : Int) + 1) * (H : Int) + ((y : Int) + 0) = (((x + 1) * H + y : Nat) : Int) := by
      push_cast; ring
    simp only [hr, and_self, if_true, hc, h]
    rw [toU32_natCast _ (by omega), enc_eq _ (by omega)]
  · have hr : ¬ ((0 : Int) ≤ (x : Int) + 1 ∧ (x : Int) + 1 < (W : Int) ∧
        (0 : Int) ≤ (y : Int) + 0 ∧ (y : Int) + 0 < (H : Int)) := by omega
    simp only [hr, if_false, h]

/-- The four slots of one cell as `connect_cell` writes them: the encoded
neighbours, consecutively from slot 0. -/
theorem connect_cell_eq (W H x y : Nat) (T : List Nat)
    (hx : x < W) (hy : y < H) (hsz : W * H < 2 ^ 31) :
    connect_cell W H x y T =
      memcpy T ((x * H + y) * 4) ((nbr_indices W H x y).map (fun m => 2 * m + 1)) := by
  unfold connect_cell
  simp only [List.foldl]
  rw [connect_offset_skip _ _ _ _ (-1) (-1) _ (by decide),
    connect_offset_left _ _ _ _ _ hx hy hsz,
    connect_offset_skip _ _ _ _ (-1) 1 _ (by decide),
    connect_offset_up _ _ _ _ _ hx hy hsz,
    connect_offset_skip _ _ _ _ 0 0 _ (by decide),
    connect_offset_down _ _ _ _ _ hx hy hsz,
    connect_offset_skip _ _ _ _ 1 (-1) _ (by decide),
    connect_offset_right _ _ _ _ _ hx hy hsz,
    connect_offset_skip _ _ _ _ 1 1 _ (by decide)]
  unfold nbr_indices
  by_cases h1 : 1 ≤ x <;> by_cases h2 : 1 ≤ y <;> by_cases h3 : y + 1 < H <;>
    by_cases h4 : x + 1 < W <;> simp [h1, h2, h3, h4, memcpy]

theorem nbr_indices_length_le (W H x y : Nat) : (nbr_indices W H x y).length ≤ 4 := by
  unfold nbr_indices
  by_cases h1 : 1 ≤ x <;> by_cases h2 : 1 ≤ y <;> by_cases h3 : y + 1 < H <;>
    by_cases h4 : x + 1 < W <;> simp [h1, h2, h3, h4]

theorem table_inv_step (W H x y : Nat) (T : List Nat)
    (hx : x < W) (hy : y < H) (hsz : W * H < 2 ^ 31)
    (hT : table_inv W H (x * H + y) T) :
    table_inv W H (x * H + (y + 1)) (connect_cell W H x y T) := by
  obtain ⟨hlen, hget⟩ := hT
  rw [connect_cell_eq W H x y T hx hy hsz]
  refine ⟨by rw [memcpy_length, hlen], ?_⟩
  intro p hp
  rw [memcpy_getD 0 _ _ _ _ (by omega), hget p hp]
  have hl := nbr_indices_length_le W H x y
  rw [List.length_map]
  by_cases h1 : p / 4 < x * H + y
  · have h2 : ¬ ((x * H + y) * 4 ≤ p ∧ p < (x * H + y) * 4 + (nbr_indices W H x y).length) := by
      omega
    have h3 : p / 4 < x * H + (y + 1) := by omega
    rw [if_neg h2, if_pos h1, if_pos h3]
  · by_cases h4 : p / 4 = x * H + y
    · have h3 : p / 4 < x * H + (y + 1) := by omega
      have h5 : p - (x * H + y) * 4 = p % 4 := by omega
      rw [if_neg h1, if_pos h3, h5]
      unfold slot_value
      rw [h4, idx_div hy, idx_mod hy]
      by_cases h6 : p % 4 < (nbr_indices W H x y).length
      · rw [if_pos (by omega)]
      · rw [if_neg (by omega)]
        simp only [List.getD_eq_getElem?_getD]
        rw [List.getElem?_eq_none (by rw [List.length_map]; omega)]
        rfl
    · have h2 : ¬ ((x * H + y) * 4 ≤ p ∧
          p < (x * H + y) * 4 + (nbr_indices W H x y).length) := by omega
      have h3 : ¬ p / 4 < x * H + (y + 1) := by omega
      rw [if_neg h2, if_neg h1, if_neg h3]

/-- The table built by `setup_game_state`, slot by slot. -/
theorem setup_table (W H : Nat) (hsz : W * H < 2 ^ 31) :
    (setup_game_state W H).2.length = W * H * 4 ∧
    ∀ s n, s < W * H → n < 4 →
      (setup_game_state W H).2.getD (s * 4 + n) 0 = slot_value W H s n := by
  have key : table_inv W H (W * H) (setup_game_state W H).2 := by
    unfold setup_game_state
    simp only
    apply foldl_range_inv _ (fun x T => table_inv W H (x * H) T)
    · refine ⟨by simp, ?_⟩
      intro p hp
      simp [List.getD_eq_getElem?_getD, List.getElem?_replicate, hp]
    · intro x T hx hT
      have : (x + 1) * H = x * H + H := by ring
      rw [this]
      apply foldl_range_inv _ (fun y T => table_inv W H (x * H + y) T)
      · simpa using hT
      · intro y T2 hy hT2
        exact table_inv_step W H x y T2 hx hy hsz hT2
  refine ⟨key.1, ?_⟩
  intro s n hs hn
  have h := key.2 (s * 4 + n) (by omega)
  have h1 : (s * 4 + n) / 4 = s := by omega
  have h2 : (s * 4 + n) % 4 = n := by omega
  rw [h, h1, h2, if_pos hs]

theorem range_four : List.range 4 = [0, 1, 2, 3] := by decide

theorem xor_at (st : List Nat) (m k b : Nat) (hk : k < st.length) :
    (st.set m (st.getD m 0 ^^^ b)).getD k 0 = st.getD k 0 ^^^ (if m = k then b else 0) := by
  rw [getD_set _ _ _ _ _ hk]
  by_cases h : m = k
  · subst h; simp
  · simp [h]

theorem poke_slot_length (i : Nat) (T st : List Nat) (n : Nat) :
    (poke_slot i T st n).length = st.length := by
  simp [poke_slot]

theorem poke_length (i : Nat) (state T : List Nat) : (poke i state T).length = state.length := by
  simp [poke, range_four, List.foldl, poke_slot_length]

/-- What `poke` does to one byte, for an arbitrary table: the byte is xor-ed with 1
if `k = i`, and then with the flag bit of every slot of `i` that points to `k`. -/
theorem poke_getD (i : Nat) (state T : List Nat) (k : Nat) (hk : k < state.length) :
    (poke i state T).getD k 0 =
      ((((state.getD k 0 ^^^ (if i = k then 1 else 0))
        ^^^ (if T.getD (i * 4 + 0) 0 >>> 1 = k then 1 &&& T.getD (i * 4 + 0) 0 else 0))
        ^^^ (if T.getD (i * 4 + 1) 0 >>> 1 = k then 1 &&& T.getD (i * 4 + 1) 0 else 0))
        ^^^ (if T.getD (i * 4 + 2) 0 >>> 1 = k then 1 &&& T.getD (i * 4 + 2) 0 else 0))
        ^^^ (if T.getD (i * 4 + 3) 0 >>> 1 = k then 1 &&& T.getD (i * 4 + 3) 0 else 0) := by
  unfold poke
  rw [range_four]
  simp only [List.foldl]
  unfold poke_slot
  simp only
  rw [xor_at _ _ _ _ (by simp [hk]), xor_at _ _ _ _ (by simp [hk]),
    xor_at _ _ _ _ (by simp [hk]), xor_at _ _ _ _ (by simp [hk]), xor_at _ _ _ _ hk]

/-- The neighbour indices written linearly in the cell index `s = x * H + y`. -/
theorem nbr_indices_eq (W H x y : Nat) :
    nbr_indices W H x y =
      (if 1 ≤ x then [x * H + y - H] else []) ++
      ((if 1 ≤ y then [x * H + y - 1] else []) ++
      ((if y + 1 < H then [x * H + y + 1] else []) ++
      (if x + 1 < W then [x * H + y + H] else []))) := by
  unfold nbr_indices
  have h1 : 1 ≤ x → (x - 1) * H + y = x * H + y - H := by
    intro h
    obtain ⟨z, rfl⟩ : ∃ z, x = z + 1 := ⟨x - 1, by omega⟩
    have : (z + 1) * H = z * H + H := by ring
    simp only [Nat.add_sub_cancel]
    omega
  have h2 : (x + 1) * H + y = x * H + y + H := by ring
  by_cases hx : 1 ≤ x
  · simp only [hx, if_true, h1 hx, h2]
  · simp only [hx, if_false, h2]

theorem slots_setup (W H x y : Nat) (hx : x < W) (hy : y < H) (hsz : W * H < 2 ^ 31)
    (n : Nat) (hn : n < 4) :
    (setup_game_state W H).2.getD ((x * H + y) * 4 + n) 0 =
      ((nbr_indices W H x y).map (fun m => 2 * m + 1)).getD n 0 := by
  rw [(setup_table W H hsz).2 _ n (idx_lt hx hy) hn]
  unfold slot_value
  rw [idx_div hy, idx_mod hy]

theorem nbr_indices_nodup (W H x y : Nat) (hy : y < H) :
    ((x * H + y) :: nbr_indices W H x y).Nodup := by
  rw [nbr_indices_eq]
  have hm : 1 ≤ x → H ≤ x * H := Nat.le_mul_of_pos_left H
  generalize x * H = a at *
  by_cases h1 : 1 ≤ x <;> by_cases h2 : 1 ≤ y <;> by_cases h3 : y + 1 < H <;>
    by_cases h4 : x + 1 < W <;>
    simp only [h1, h2, h3, h4, if_true, if_false, List.nil_append, List.cons_append,
      List.append_nil, List.nodup_cons, List.mem_cons, List.mem_nil_iff, List.not_mem_nil,
      or_false, not_false_eq_true, List.nodup_nil, and_true, not_or, List.mem_singleton] <;>
    omega

theorem xor_fold_nodup (k : Nat) (L : List Nat) : ∀ (v : Nat), L.Nodup →
    L.foldl (fun v m => v ^^^ (if m = k then 1 else 0)) v = if k ∈ L then v ^^^ 1 else v := by
  induction L with
  | nil => intro v _; simp
  | cons a L ih =>
    intro v hnd
    rw [List.nodup_cons] at hnd
    rw [List.foldl, ih _ hnd.2]
    by_cases h : a = k
    · subst h
      simp [hnd.1]
    · have h' : ¬ k = a := fun e => h e.symm
      simp [h, h']

/-- Effect of `poke` on one byte when the slots of `i` hold the encodings of a
duplicate-free list `L` of at most four indices other than `i`, zero-padded. -/
theorem poke_getD_list (i : Nat) (state T : List Nat) (k : Nat) (hk : k < state.length)
    (L : List Nat) (hL : L.length ≤ 4) (hnd : (i :: L).Nodup)
    (hs : ∀ n, n < 4 → T.getD (i * 4 + n) 0 = (L.map (fun m => 2 * m + 1)).getD n 0) :
    (poke i state T).getD k 0 =
      if k = i ∨ k ∈ L then state.getD k 0 ^^^ 1 else state.getD k 0 := by
  rw [poke_getD _ _ _ _ hk, hs 0 (by omega), hs 1 (by omega), hs 2 (by omega), hs 3 (by omega)]
  have hfold : (i :: L).foldl (fun v m => v ^^^ (if m = k then 1 else 0)) (state.getD k 0) =
      if k = i ∨ k ∈ L then state.getD k 0 ^^^ 1 else state.getD k 0 := by
    rw [xor_fold_nodup k (i :: L) _ hnd]
    simp only [List.mem_cons]
  rw [← hfold]
  generalize state.getD k 0 = v
  rcases L with _ | ⟨a, _ | ⟨b, _ | ⟨c, _ | ⟨d, _ | ⟨e, L⟩⟩⟩⟩⟩
  · simp only [List.map, List.getD_nil, Nat.zero_shiftRight, Nat.and_zero, ite_self,
      Nat.xor_zero, List.foldl]
  · simp only [List.map, List.getD_cons_zero, List.getD_cons_succ, List.getD_nil,
      Nat.zero_shiftRight, Nat.and_zero, ite_self, Nat.xor_zero, List.foldl, enc_shift, enc_flag]
  · simp only [List.map, List.getD_cons_zero, List.getD_cons_succ, List.getD_nil,
      Nat.zero_shiftRight, Nat.and_zero, ite_self, Nat.xor_zero, List.foldl, enc_shift, enc_flag]
  · simp only [List.map, List.getD_cons_zero, List.getD_cons_succ, List.getD_nil,
      Nat.zero_shiftRight, Nat.and_zero, ite_self, Nat.xor_zero, List.foldl, enc_shift, enc_flag]
  · simp only [List.map, List.getD_cons_zero, List.getD_cons_succ, List.getD_nil,
      Nat.zero_shiftRight, Nat.and_zero, ite_self, Nat.xor_zero, List.foldl, enc_shift, enc_flag]
  · simp only [List.length_cons] at hL
    omega

theorem poke_getD_setup (W H x y : Nat) (hx : x < W) (hy : y < H) (hsz : W * H < 2 ^ 31)
    (state : List Nat) (k : Nat) (hk : k < state.length) :
    (poke (x * H + y) state (setup_game_state W H).2).getD k 0 =
      if k = x * H + y ∨ k ∈ nbr_indices W H x y then state.getD k 0 ^^^ 1
      else state.getD k 0 :=
  poke_getD_list _ _ _ _ hk _ (nbr_indices_length_le W H x y) (nbr_indices_nodup W H x y hy)
    (fun n hn => slots_setup W H x y hx hy hsz n hn)

theorem neighbours_eq (T : List Nat) (i : Nat) :
    neighbours T i =
      (([T.getD (i * 4 + 0) 0, T.getD (i * 4 + 1) 0, T.getD (i * 4 + 2) 0,
          T.getD (i * 4 + 3) 0]).filter (fun c => c &&& 1 = 1)).map (fun c => c >>> 1) := by
  unfold neighbours
  rw [range_four]
  show _ = List.map _ (List.filter _ (List.map (fun n => T.getD (i * 4 + n) 0) [0, 1, 2, 3]))
  rw [List.filter_map, List.map_map]
  rfl

/-- The neighbours recorded for a cell of the finished table. -/
theorem neighbours_setup (W H x y : Nat) (hx : x < W) (hy : y < H) (hsz : W * H < 2 ^ 31) :
    neighbours (setup_game_state W H).2 (x * H + y) = nbr_indices W H x y := by
  rw [neighbours_eq, slots_setup W H x y hx hy hsz 0 (by omega),
    slots_setup W H x y hx hy hsz 1 (by omega),
    slots_setup W H x y hx hy hsz 2 (by omega), slots_setup W H x y hx hy hsz 3 (by omega)]
  unfold nbr_indices
  by_cases h1 : 1 ≤ x <;> by_cases h2 : 1 ≤ y <;> by_cases h3 : y + 1 < H <;>
    by_cases h4 : x + 1 < W <;>
    simp [h1, h2, h3, h4, enc_shift, Nat.and_one_is_mod, Nat.add_mod]

theorem mem_ite_single {k a : Nat} {c : Prop} [Decidable c] :
    k ∈ (if c then [a] else []) ↔ c ∧ k = a := by
  by_cases h : c <;> simp [h]

theorem mem_nbr_indices (W H x y x' y' : Nat) (hy : y < H) (hx' : x' < W) (hy' : y' < H) :
    x' * H + y' ∈ nbr_indices W H x y ↔
      (x' + 1 = x ∧ y' = y) ∨ (x' = x ∧ y' + 1 = y) ∨ (x' = x ∧ y' = y + 1) ∨
        (x' = x + 1 ∧ y' = y) := by
  have e1 : 1 ≤ x → (x' * H + y' = (x - 1) * H + y ↔ x' = x - 1 ∧ y' = y) :=
    fun _ => idx_inj_iff hy hy'
  have e2 : 1 ≤ y → (x' * H + y' = x * H + y - 1 ↔ x' = x ∧ y' = y - 1) := by
    intro h
    have : x * H + y - 1 = x * H + (y - 1) := by omega
    rw [this]
    exact idx_inj_iff (by omega) hy'
  have e3 : y + 1 < H → (x' * H + y' = x * H + y + 1 ↔ x' = x ∧ y' = y + 1) := by
    intro h
    rw [Nat.add_assoc]
    exact idx_inj_iff h hy'
  have e4 : (x' * H + y' = (x + 1) * H + y ↔ x' = x + 1 ∧ y' = y) := idx_inj_iff hy hy'
  unfold nbr_indices
  simp only [List.mem_append, mem_ite_single]
  constructor
  · rintro (⟨h, e⟩ | ⟨h, e⟩ | ⟨h, e⟩ | ⟨h, e⟩)
    · have := (e1 h).1 e; omega
    · have := (e2 h).1 e; omega
    · have := (e3 h).1 e; omega
    · have := e4.1 e; omega
  · rintro (⟨a, b⟩ | ⟨a, b⟩ | ⟨a, b⟩ | ⟨a, b⟩)
    · exact Or.inl ⟨by omega, (e1 (by omega)).2 ⟨by omega, b⟩⟩
    · exact Or.inr (Or.inl ⟨by omega, (e2 (by omega)).2 ⟨a, by omega⟩⟩)
    · exact Or.inr (Or.inr (Or.inl ⟨by omega, (e3 (by omega)).2 ⟨a, b⟩⟩))
    · exact Or.inr (Or.inr (Or.inr ⟨by omega, e4.2 ⟨a, b⟩⟩))

/-- One `poke` on a cell of the finished table, byte by byte, in terms of the
neighbours the table records. -/
theorem poke_cell_getD (W H : Nat) (hsz : W * H < 2 ^ 31) (i : Nat) (hi : i < W * H)
    (state : List Nat) (k : Nat) (hk : k < state.length) :
    (poke i state (setup_game_state W H).2).getD k 0 =
      if k = i ∨ k ∈ neighbours (setup_game_state W H).2 i then state.getD k 0 ^^^ 1
      else state.getD k 0 := by
  obtain ⟨hx, hy, he⟩ := cell_coords hi
  have h1 := poke_getD_setup W H (i / H) (i % H) hx hy hsz state k hk
  have h2 := neighbours_setup W H (i / H) (i % H) hx hy hsz
  rw [he] at h1 h2
  rw [h2]
  exact h1

theorem xor_one_xor_one (v : Nat) : (v ^^^ 1) ^^^ 1 = v := by
  rw [Nat.xor_assoc, Nat.xor_self, Nat.xor_zero]

theorem xor_one_ne (v : Nat) : v ^^^ 1 ≠ v := by
  intro h
  have h2 : v ^^^ (v ^^^ 1) = v ^^^ v := by rw [h]
  rw [← Nat.xor_assoc, Nat.xor_self, Nat.zero_xor] at h2
  exact absurd h2 (by decide)

theorem lit_xor_one (v : Nat) (h : v ≤ 1) : lit (v ^^^ 1) = !(lit v) := by
  interval_cases v <;> rfl

theorem poke_times_length (n i : Nat) (state T : List Nat) :
    (poke_times n i state T).length = state.length := by
  induction n with
  | zero => rfl
  | succ m ih =>
    unfold poke_times at ih ⊢
    rw [Function.iterate_succ_apply', poke_length, ih]

theorem poke_times_getD (W H : Nat) (hsz : W * H < 2 ^ 31) (i : Nat) (hi : i < W * H)
    (state : List Nat) (n k : Nat) (hk : k < state.length) :
    (poke_times n i state (setup_game_state W H).2).getD k 0 =
      if n % 2 = 1 ∧ (k = i ∨ k ∈ neighbours (setup_game_state W H).2 i)
      then state.getD k 0 ^^^ 1 else state.getD k 0 := by
  induction n with
  | zero => simp [poke_times]
  | succ m ih =>
    have hl := poke_times_length m i state (setup_game_state W H).2
    have hstep : poke_times (m + 1) i state (setup_game_state W H).2 =
        poke i (poke_times m i state (setup_game_state W H).2) (setup_game_state W H).2 := by
      unfold poke_times
      rw [Function.iterate_succ_apply']
    rw [hstep, poke_cell_getD W H hsz i hi _ k (by rw [hl]; exact hk), ih]
    by_cases hS : k = i ∨ k ∈ neighbours (setup_game_state W H).2 i
    · rcases Nat.mod_two_eq_zero_or_one m with hm | hm
      · have : (m + 1) % 2 = 1 := by omega
        simp [hS, hm, this]
      · have : ¬ (m + 1) % 2 = 1 := by omega
        simp [hS, hm, this, xor_one_xor_one]
    · simp [hS]

/-- C1 (toggle XOR property). On the table built by `setup_game_state W H` (the
number of cells fitting an `int`), for every state array of `W * H` bytes, every valid
index `i` and every `n`: after `n` applications of `poke i` each byte is the original
byte xor 1 when `n` is odd and the cell is `i` or one of the neighbours recorded for
`i`, and the original byte otherwise; so the cells that change are exactly those, and
none when `n` is even; on 0/1 bytes the lit flag is negated there; an even number of
pokes, and in particular two, gives back the state array itself. -/
theorem poke_times_toggle (W H : Nat) (hsz : W * H < 2 ^ 31) (state : List Nat)
    (hlen : state.length = W * H) (i : Nat) (hi : i < W * H) (n : Nat) :
    (∀ k, k < W * H →
      (poke_times n i state (setup_game_state W H).2).getD k 0 =
        if n % 2 = 1 ∧ (k = i ∨ k ∈ neighbours (setup_game_state W H).2 i)
        then state.getD k 0 ^^^ 1 else state.getD k 0) ∧
    (∀ k, k < W * H →
      ((poke_times n i state (setup_game_state W H).2).getD k 0 ≠ state.getD k 0 ↔
        n % 2 = 1 ∧ (k = i ∨ k ∈ neighbours (setup_game_state W H).2 i))) ∧
    (∀ k, k < W * H → state.getD k 0 ≤ 1 →
      lit ((poke_times n i state (setup_game_state W H).2).getD k 0) =
        if n % 2 = 1 ∧ (k = i ∨ k ∈ neighbours (setup_game_state W H).2 i)
        then !(lit (state.getD k 0)) else lit (state.getD k 0)) ∧
    (n % 2 = 0 → poke_times n i state (setup_game_state W H).2 = state) ∧
    poke i (poke i state (setup_game_state W H).2) (setup_game_state W H).2 = state := by
  have hget := fun m k (hk : k < W * H) =>
    poke_times_getD W H hsz i hi state m k (by rw [hlen]; exact hk)
  have heven : ∀ m, m % 2 = 0 → poke_times m i state (setup_game_state W H).2 = state := by
    intro m hm
    apply List.ext_getElem (poke_times_length _ _ _ _)
    intro k h1 h2
    have := hget m k (by rw [← hlen]; exact h2)
    have hne : ¬ m % 2 = 1 := by omega
    simp only [hne, false_and, if_false] at this
    simpa [List.getD_eq_getElem?_getD, List.getElem?_eq_getElem h1,
      List.getElem?_eq_getElem h2] using this
  refine ⟨hget n, ?_, ?_, heven n, heven 2 (by decide)⟩
  · intro k hk
    rw [hget n k hk]
    by_cases hc : n % 2 = 1 ∧ (k = i ∨ k ∈ neighbours (setup_game_state W H).2 i)
    · simp only [hc, and_self, if_true, iff_true]
      exact xor_one_ne _
    · simp [hc]
  · intro k hk hb
    rw [hget n k hk]
    by_cases hc : n % 2 = 1 ∧ (k = i ∨ k ∈ neighbours (setup_game_state W H).2 i)
    · rw [if_pos hc, if_pos hc]
      exact lit_xor_one _ hb
    · rw [if_neg hc, if_neg hc]

/-- Instance of `poke_times_toggle` on the 1x1 grid: two pokes of cell 0 give the state back. -/
theorem poke_times_toggle_witness :
    poke 0 (poke 0 [1] (setup_game_state 1 1).2) (setup_game_state 1 1).2 = [1] :=
  (poke_times_toggle 1 1 (by decide) [1] rfl 0 (by decide) 2).2.2.2.2

theorem setup_state (W H : Nat) : (setup_game_state W H).1 = List.replicate (W * H) 0 := rfl

/-- C2 (end-to-end toggle on a fresh grid). After `setup_game_state W H` (the number
of cells fitting an `int`) every cell is unlit, and after one `poke` of cell `(x, y)`,
index `x * H + y`, the cell `(x', y')`, index `x' * H + y'`, is lit exactly when
`|x - x'| + |y - y'| ≤ 1`. -/
theorem poke_fresh_grid (W H : Nat) (hsz : W * H < 2 ^ 31) (x y x' y' : Nat)
    (hx : x < W) (hy : y < H) (hx' : x' < W) (hy' : y' < H) :
    lit ((setup_game_state W H).1.getD (x' * H + y') 0) = false ∧
    (lit ((poke (x * H + y) (setup_game_state W H).1 (setup_game_state W H).2).getD
        (x' * H + y') 0) = true ↔
      ((x : Int) - (x' : Int)).natAbs + ((y : Int) - (y' : Int)).natAbs ≤ 1) := by
  have hk : x' * H + y' < (setup_game_state W H).1.length := by
    rw [setup_state, List.length_replicate]
    exact idx_lt hx' hy'
  have h0 : (setup_game_state W H).1.getD (x' * H + y') 0 = 0 := by
    rw [setup_state]
    simp [List.getD_eq_getElem?_getD, List.getElem?_replicate, idx_lt hx' hy']
  refine ⟨by rw [h0]; rfl, ?_⟩
  rw [poke_getD_setup W H x y hx hy hsz _ _ hk]
  simp only [idx_inj_iff hy hy', mem_nbr_indices W H x y x' y' hy hx' hy']
  rw [h0]
  by_cases hc : (x' = x ∧ y' = y) ∨ (x' + 1 = x ∧ y' = y) ∨ (x' = x ∧ y' + 1 = y) ∨
      (x' = x ∧ y' = y + 1) ∨ (x' = x + 1 ∧ y' = y)
  · rw [if_pos hc]
    have : ((x : Int) - (x' : Int)).natAbs + ((y : Int) - (y' : Int)).natAbs ≤ 1 := by omega
    simp [this, lit]
  · rw [if_neg hc]
    have : ¬ ((x : Int) - (x' : Int)).natAbs + ((y : Int) - (y' : Int)).natAbs ≤ 1 := by omega
    simp [this, lit]

/-- Instance of `poke_fresh_grid` on the 3x3 grid, centre cell 4: cell `(0, 1)` is lit after
the poke, and the whole lit pattern is `{1, 3, 4, 5, 7}`. -/
theorem poke_fresh_grid_witness :
    (lit ((poke (1 * 3 + 1) (setup_game_state 3 3).1 (setup_game_state 3 3).2).getD
        (0 * 3 + 1) 0) = true ↔
      ((1 : Int) - (0 : Int)).natAbs + ((1 : Int) - (1 : Int)).natAbs ≤ 1) ∧
    (poke 4 (setup_game_state 3 3).1 (setup_game_state 3 3).2).map lit =
      [false, true, false, true, true, true, false, true, false] :=
  ⟨(poke_fresh_grid 3 3 (by decide) 1 1 0 1 (by decide) (by decide) (by decide)
      (by decide)).2, by decide⟩

/-- C3 (adjacency symmetry). In the table built by `setup_game_state W H` (the number
of cells fitting an `int`), if `b` is recorded among the slots of `a` then `a` is
recorded among the slots of `b`. -/
theorem adjacency_symmetric (W H : Nat) (hsz : W * H < 2 ^ 31) (a b : Nat)
    (ha : a < W * H) (hb : b < W * H)
    (h : b ∈ neighbours (setup_game_state W H).2 a) :
    a ∈ neighbours (setup_game_state W H).2 b := by
  obtain ⟨hxa, hya, hea⟩ := cell_coords ha
  obtain ⟨hxb, hyb, heb⟩ := cell_coords hb
  have h1 := neighbours_setup W H (a / H) (a % H) hxa hya hsz
  have h2 := neighbours_setup W H (b / H) (b % H) hxb hyb hsz
  rw [hea] at h1
  rw [heb] at h2
  rw [h1, ← heb, mem_nbr_indices W H _ _ _ _ hya hxb hyb] at h
  rw [h2, ← hea, mem_nbr_indices W H _ _ _ _ hyb hxa hya]
  omega

/-- Instance of `adjacency_symmetric` on the 3x3 grid: 1 is recorded for 4, so 4 is recorded for 1. -/
theorem adjacency_symmetric_witness :
    1 ∈ neighbours (setup_game_state 3 3).2 4 ∧ 4 ∈ neighbours (setup_game_state 3 3).2 1 :=
  ⟨by decide, adjacency_symmetric 3 3 (by decide) 4 1 (by decide) (by decide) (by decide)⟩

/-- C4 (neighbour count by position). On a grid with `W, H ≥ 3` (the number of cells
fitting an `int`) the number of flagged slots of cell `(x, y)` is 2 at a corner, 3 on
exactly one border, 4 in the interior, and the recorded neighbours are pairwise
distinct. -/
theorem neighbour_count (W H : Nat) (hW : 3 ≤ W) (hH : 3 ≤ H) (hsz : W * H < 2 ^ 31)
    (x y : Nat) (hx : x < W) (hy : y < H) :
    (((x = 0 ∨ x = W - 1) ∧ (y = 0 ∨ y = H - 1)) →
      (neighbours (setup_game_state W H).2 (x * H + y)).length = 2) ∧
    ((((x = 0 ∨ x = W - 1) ∧ ¬ (y = 0 ∨ y = H - 1)) ∨
        (¬ (x = 0 ∨ x = W - 1) ∧ (y = 0 ∨ y = H - 1))) →
      (neighbours (setup_game_state W H).2 (x * H + y)).length = 3) ∧
    ((¬ (x = 0 ∨ x = W - 1) ∧ ¬ (y = 0 ∨ y = H - 1)) →
      (neighbours (setup_game_state W H).2 (x * H + y)).length = 4) ∧
    (neighbours (setup_game_state W H).2 (x * H + y)).Nodup := by
  rw [neighbours_setup W H x y hx hy hsz]
  refine ⟨?_, ?_, ?_, (List.nodup_cons.1 (nbr_indices_nodup W H x y hy)).2⟩
  all_goals
    intro hc
    unfold nbr_indices
    by_cases h1 : 1 ≤ x <;> by_cases h2 : 1 ≤ y <;> by_cases h3 : y + 1 < H <;>
      by_cases h4 : x + 1 < W <;>
      simp only [h1, h2, h3, h4, if_true, if_false, List.nil_append, List.cons_append,
        List.append_nil, List.length_cons, List.length_nil] <;>
      omega

/-- Instance of `neighbour_count` on the 3x3 grid: the corner `(0, 0)` has 2 recorded neighbours. -/
theorem neighbour_count_witness :
    (neighbours (setup_game_state 3 3).2 (0 * 3 + 0)).length = 2 :=
  (neighbour_count 3 3 (by decide) (by decide) (by decide) 0 0 (by decide) (by decide)).1
    ⟨Or.inl rfl, Or.inl rfl⟩

/-! ## Layout: `setup_layout` and the hover rectangles -/

theorem vertex_offset_eq (cy i j : Nat) (h : (i * cy + j) * 12 < 2 ^ 32) :
    vertex_offset cy i j = (i * cy + j) * 12 := by
  unfold vertex_offset
  have : i * cy * 2 * 6 + j * 2 * 6 = (i * cy + j) * 12 := by ring
  rw [this, toU32_natCast _ h]

theorem vertex_inv_step (cx cy : Nat) (lay : Layout) (i j : Nat) (vb : List ℚ)
    (hi : i < cx) (hj : j < cy) (hsz : cx * cy * 12 < 2 ^ 32)
    (h : vertex_inv cx cy lay (i * cy + j) vb) :
    vertex_inv cx cy lay (i * cy + j + 1)
      (layout_cell cy lay.cell_width lay.cell_height lay.pad_x lay.pad_y i j vb) := by
  obtain ⟨hlen, hget⟩ := h
  have hk := idx_lt hi hj
  unfold layout_cell
  simp only
  rw [vertex_offset_eq cy i j (by omega)]
  refine ⟨by rw [memcpy_length, hlen], ?_⟩
  intro p hp
  rw [memcpy_getD 0 _ _ _ _ (by omega)]
  have hl : (cell_vertices ((lay.cell_width + lay.pad_x) * (i : ℚ))
      ((lay.cell_height + lay.pad_y) * (j : ℚ)) lay.cell_width lay.cell_height).length = 12 := rfl
  rw [hl]
  by_cases h1 : (i * cy + j) * 12 ≤ p ∧ p < (i * cy + j) * 12 + 12
  · rw [if_pos h1]
    unfold vertex_value
    have h2 : p / 12 = i * cy + j := by omega
    have h3 : p - (i * cy + j) * 12 = p % 12 := by omega
    rw [h2, h3, idx_div hj, idx_mod hj]
  · rw [if_neg h1]
    exact hget p (by omega)

theorem setup_layout_buffer (w h cx cy : Nat) (vb : List ℚ) (hlen : vb.length = cx * cy * 12)
    (hsz : cx * cy * 12 < 2 ^ 32) :
    vertex_inv cx cy (setup_layout w h cx cy vb).1 (cx * cy) (setup_layout w h cx cy vb).2 := by
  unfold setup_layout
  simp only
  apply scan_inv (fun i j vb => layout_cell cy _ _ 5 5 i j vb)
    (fun k vb => vertex_inv cx cy _ k vb)
  · exact ⟨hlen, fun p hp => absurd hp (by omega)⟩
  · intro i j s hi hj hP
    exact vertex_inv_step cx cy _ i j s hi hj hsz hP

theorem cell_unique (cx cy p : Nat) (hp : p < cx * cy * 12)
    (off : Nat → Nat → Nat) (hoff : ∀ i j, i < cx → j < cy → off i j = (i * cy + j) * 12) :
    ∃! c : Nat × Nat, c.1 < cx ∧ c.2 < cy ∧ off c.1 c.2 ≤ p ∧ p < off c.1 c.2 + 12 := by
  have hc : p / 12 < cx * cy := by omega
  obtain ⟨h1, h2, h3⟩ := cell_coords hc
  refine ⟨(p / 12 / cy, p / 12 % cy), ⟨h1, h2, ?_⟩, ?_⟩
  · simp only
    rw [hoff _ _ h1 h2, h3]
    omega
  · rintro ⟨i, j⟩ ⟨hi, hj, hlo, hhi⟩
    simp only at hi hj hlo hhi
    rw [hoff i j hi hj] at hlo hhi
    have : p / 12 = i * cy + j := by omega
    rw [this, idx_div hj, idx_mod hj]

/-- C8 (geometry emission). For a vertex buffer of `cells_x * cells_y * 12` floats (its
size fitting the offset type), `setup_layout` returns a buffer of the same length in
which, for every cell `(i, j)`, the 12 floats from offset `(i * cells_y + j) * 12` are
`bl (x, y+h), br (x+w, y+h), tr (x+w, y), bl (x, y+h), tr (x+w, y), tl (x, y)` with
`x = (cell_width + pad_x) * i`, `y = (cell_height + pad_y) * j`, `w = cell_width`,
`h = cell_height`; the offset `vsi` of cell `(i, j)` is `(i * cells_y + j) * 12`, and
every slot of the buffer lies in the 12-float block of exactly one cell. -/
theorem setup_layout_geometry (w h cx cy : Nat) (vb : List ℚ)
    (hlen : vb.length = cx * cy * 12) (hsz : cx * cy * 12 < 2 ^ 32) :
    (setup_layout w h cx cy vb).2.length = cx * cy * 12 ∧
    (∀ i j, i < cx → j < cy →
      vertex_offset cy i j = (i * cy + j) * 12 ∧
      ((setup_layout w h cx cy vb).2.drop ((i * cy + j) * 12)).take 12 =
        [ (((setup_layout w h cx cy vb).1.cell_width + (setup_layout w h cx cy vb).1.pad_x) * i),
          (((setup_layout w h cx cy vb).1.cell_height + (setup_layout w h cx cy vb).1.pad_y) * j)
            + (setup_layout w h cx cy vb).1.cell_height,
          (((setup_layout w h cx cy vb).1.cell_width + (setup_layout w h cx cy vb).1.pad_x) * i)
            + (setup_layout w h cx cy vb).1.cell_width,
          (((setup_layout w h cx cy vb).1.cell_height + (setup_layout w h cx cy vb).1.pad_y) * j)
            + (setup_layout w h cx cy vb).1.cell_height,
          (((setup_layout w h cx cy vb).1.cell_width + (setup_layout w h cx cy vb).1.pad_x) * i)
            + (setup_layout w h cx cy vb).1.cell_width,
          (((setup_layout w h cx cy vb).1.cell_height + (setup_layout w h cx cy vb).1.pad_y) * j),
          (((setup_layout w h cx cy vb).1.cell_width + (setup_layout w h cx cy vb).1.pad_x) * i),
          (((setup_layout w h cx cy vb).1.cell_height + (setup_layout w h cx cy vb).1.pad_y) * j)
            + (setup_layout w h cx cy vb).1.cell_height,
          (((setup_layout w h cx cy vb).1.cell_width + (setup_layout w h cx cy vb).1.pad_x) * i)
            + (setup_layout w h cx cy vb).1.cell_width,
          (((setup_layout w h cx cy vb).1.cell_height + (setup_layout w h cx cy vb).1.pad_y) * j),
          (((setup_layout w h cx cy vb).1.cell_width + (setup_layout w h cx cy vb).1.pad_x) * i),
          (((setup_layout w h cx cy vb).1.cell_height + (setup_layout w h cx cy vb).1.pad_y) * j) ]) ∧
    (∀ p, p < cx * cy * 12 →
      ∃! c : Nat × Nat, c.1 < cx ∧ c.2 < cy ∧
        vertex_offset cy c.1 c.2 ≤ p ∧ p < vertex_offset cy c.1 c.2 + 12) := by
  obtain ⟨hl, hget⟩ := setup_layout_buffer w h cx cy vb hlen hsz
  have hoff : ∀ i j, i < cx → j < cy → vertex_offset cy i j = (i * cy + j) * 12 := by
    intro i j hi hj
    have := idx_lt hi hj
    exact vertex_offset_eq cy i j (by omega)
  refine ⟨hl, ?_, fun p hp => cell_unique cx cy p hp _ hoff⟩
  intro i j hi hj
  refine ⟨hoff i j hi hj, ?_⟩
  have hk := idx_lt hi hj
  apply List.ext_getElem
  · simp only [List.length_take, List.length_drop, hl, List.length_cons, List.length_nil]
    omega
  · intro t h1 h2
    have ht : t < 12 := by simpa using h2
    have hv := hget ((i * cy + j) * 12 + t) (by omega)
    unfold vertex_value at hv
    have e1 : ((i * cy + j) * 12 + t) / 12 = i * cy + j := by omega
    have e2 : ((i * cy + j) * 12 + t) % 12 = t := by omega
    rw [e1, e2, idx_div hj, idx_mod hj] at hv
    rw [List.getElem_take, List.getElem_drop]
    have hb : (i * cy + j) * 12 + t < (setup_layout w h cx cy vb).2.length := by
      rw [hl]; omega
    rw [List.getD_eq_getElem?_getD, List.getElem?_eq_getElem hb] at hv
    simp only [Option.getD_some] at hv
    rw [hv]
    unfold cell_vertices
    rw [List.getD_eq_getElem?_getD, List.getElem?_eq_getElem (by simpa using ht)]
    rfl

/-- Instance of `setup_layout_geometry`: a 1x2 grid in a 25x30 viewport, cell width 25, cell
height 10; the second cell's quad starts at `y = 15`. -/
theorem setup_layout_geometry_witness :
    (setup_layout 25 30 1 2 (List.replicate 24 0)).2 =
      [0, 10, 25, 10, 25, 0, 0, 10, 25, 0, 0, 0,
       0, 25, 25, 25, 25, 15, 0, 25, 25, 15, 0, 15] ∧
    (setup_layout 25 30 1 2 (List.replicate 24 0)).2.length = 1 * 2 * 12 :=
  ⟨by decide!, (setup_layout_geometry 25 30 1 2 (List.replicate 24 0) rfl (by decide)).1⟩

/-- C10 (layout computation). `setup_layout` returns `pad_x = pad_y = 5` whatever the
viewport, `cell_width = (min w h - 5 * (cells_x - 1)) / cells_x` and
`cell_height = (min w h - 5 * (cells_y - 1)) / cells_y`, with no guard on the sign;
a 600x600 viewport with a 5x5 grid gives 116 for both. -/
theorem setup_layout_values (w h cx cy : Nat) (vb : List ℚ) :
    (setup_layout w h cx cy vb).1.pad_x = 5 ∧
    (setup_layout w h cx cy vb).1.pad_y = 5 ∧
    (setup_layout w h cx cy vb).1.cell_width =
      (((min w h : Nat) : ℚ) - 5 * ((cx : ℚ) - 1)) / (cx : ℚ) ∧
    (setup_layout w h cx cy vb).1.cell_height =
      (((min w h : Nat) : ℚ) - 5 * ((cy : ℚ) - 1)) / (cy : ℚ) ∧
    (setup_layout 600 600 5 5 vb).1.cell_width = 116 ∧
    (setup_layout 600 600 5 5 vb).1.cell_height = 116 := by
  have hmin : (if w > h then h else w) = min w h := by
    by_cases hc : w > h
    · rw [if_pos hc, Nat.min_eq_right (Nat.le_of_lt hc)]
    · rw [if_neg hc, Nat.min_eq_left (Nat.le_of_not_lt hc)]
  refine ⟨rfl, rfl, ?_, ?_, ?_, ?_⟩
  · simp only [setup_layout, hmin]; push_cast; rfl
  · simp only [setup_layout, hmin]; push_cast; rfl
  · simp only [setup_layout]; norm_num
  · simp only [setup_layout]; norm_num

theorem hover_test_iff (lay : Layout) (px py : ℚ) (i j : Nat) :
    hover_test lay px py i j = true ↔
      ((lay.cell_width + lay.pad_x) * (i : ℚ) ≤ px ∧
        px ≤ (lay.cell_width + lay.pad_x) * (i : ℚ) + lay.cell_width) ∧
      ((lay.cell_height + lay.pad_y) * (j : ℚ) ≤ py ∧
        py ≤ (lay.cell_height + lay.pad_y) * (j : ℚ) + lay.cell_height) := by
  unfold hover_test
  simp only [decide_eq_true_eq, ge_iff_le]
  tauto

/-- Two closed intervals `[(c + pad) * i, (c + pad) * i + c]` with `pad > 0` that share a
point have the same index. -/
theorem interval_index_unique (c pad p : ℚ) (hpad : 0 < pad) (i i' : Nat)
    (h1 : (c + pad) * (i : ℚ) ≤ p ∧ p ≤ (c + pad) * (i : ℚ) + c)
    (h2 : (c + pad) * (i' : ℚ) ≤ p ∧ p ≤ (c + pad) * (i' : ℚ) + c) : i = i' := by
  have hc : 0 ≤ c := by linarith [h1.1, h1.2]
  have hs : 0 < c + pad := by linarith
  rcases Nat.lt_trichotomy i i' with h | h | h
  · exfalso
    have : ((i : ℚ) + 1) ≤ (i' : ℚ) := by exact_mod_cast h
    have := mul_le_mul_of_nonneg_left this hs.le
    nlinarith [h1.1, h1.2, h2.1, h2.2]
  · exact h
  · exfalso
    have : ((i' : ℚ) + 1) ≤ (i : ℚ) := by exact_mod_cast h
    have := mul_le_mul_of_nonneg_left this hs.le
    nlinarith [h1.1, h1.2, h2.1, h2.2]

theorem hover_unique (lay : Layout) (hx : 0 < lay.pad_x) (hy : 0 < lay.pad_y) (px py : ℚ)
    (i j i' j' : Nat) (h1 : hover_test lay px py i j = true)
    (h2 : hover_test lay px py i' j' = true) : i = i' ∧ j = j' := by
  rw [hover_test_iff] at h1 h2
  exact ⟨interval_index_unique _ _ _ hx i i' h1.1 h2.1,
    interval_index_unique _ _ _ hy j j' h1.2 h2.2⟩

/-- C7 (hover exclusivity). With the layout computed by `setup_layout` (any viewport,
any grid) and any pointer position, exact arithmetic: two cells whose closed hover
rectangles both contain the pointer are the same cell, so the rectangles of distinct
cells are disjoint and at most one cell is hovered; and if the pointer lies strictly
inside the rectangle of `(i, j)` then `(i, j)` is hovered and it is the only one. -/
theorem hover_exclusive (w h cx cy : Nat) (vb : List ℚ) (px py : ℚ) :
    (∀ i j i' j' : Nat,
      hover_test (setup_layout w h cx cy vb).1 px py i j = true →
      hover_test (setup_layout w h cx cy vb).1 px py i' j' = true → i = i' ∧ j = j') ∧
    (∀ i j : Nat,
      ((setup_layout w h cx cy vb).1.cell_width + (setup_layout w h cx cy vb).1.pad_x) * (i : ℚ)
        < px →
      px < ((setup_layout w h cx cy vb).1.cell_width + (setup_layout w h cx cy vb).1.pad_x)
        * (i : ℚ) + (setup_layout w h cx cy vb).1.cell_width →
      ((setup_layout w h cx cy vb).1.cell_height + (setup_layout w h cx cy vb).1.pad_y) * (j : ℚ)
        < py →
      py < ((setup_layout w h cx cy vb).1.cell_height + (setup_layout w h cx cy vb).1.pad_y)
        * (j : ℚ) + (setup_layout w h cx cy vb).1.cell_height →
      hover_test (setup_layout w h cx cy vb).1 px py i j = true ∧
      ∀ i' j', hover_test (setup_layout w h cx cy vb).1 px py i' j' = true →
        i' = i ∧ j' = j) := by
  have hx : (0 : ℚ) < (setup_layout w h cx cy vb).1.pad_x := by
    show (0 : ℚ) < 5
    norm_num
  have hy : (0 : ℚ) < (setup_layout w h cx cy vb).1.pad_y := by
    show (0 : ℚ) < 5
    norm_num
  refine ⟨fun i j i' j' h1 h2 => hover_unique _ hx hy px py i j i' j' h1 h2, ?_⟩
  intro i j a1 a2 a3 a4
  have hh : hover_test (setup_layout w h cx cy vb).1 px py i j = true := by
    rw [hover_test_iff]
    exact ⟨⟨a1.le, a2.le⟩, ⟨a3.le, a4.le⟩⟩
  exact ⟨hh, fun i' j' h2 => hover_unique _ hx hy px py i' j' i j h2 hh⟩

/-! ## The colour loop -/

theorem range_six : List.range 6 = [0, 1, 2, 3, 4, 5] := by decide

theorem color_offset_eq (si v : Nat) (hv : v < 6) (hsi : si * 24 + 24 ≤ 2 ^ 32) :
    color_offset si v = si * 24 + v * 4 := by
  unfold color_offset
  rw [Nat.mod_eq_of_lt (by omega)]
  omega

theorem color_fill_length (cb : List Nat) (si : Nat) (color : List Nat) :
    ((List.range 6).foldl (fun cb v => memcpy cb (color_offset si v) color) cb).length =
      cb.length := by
  rw [range_six]
  simp only [List.foldl, memcpy_length]

/-- The six `SDL_memcpy` of line 265 fill the 24 bytes of cell `si` with six copies of
`color` and leave the rest of the buffer alone. -/
theorem color_fill_getD (cb : List Nat) (si : Nat) (color : List Nat) (hc : color.length = 4)
    (hsi : si * 24 + 24 ≤ 2 ^ 32) (p : Nat) (hp : p < cb.length) :
    ((List.range 6).foldl (fun cb v => memcpy cb (color_offset si v) color) cb).getD p 0 =
      if si * 24 ≤ p ∧ p < si * 24 + 24 then color.getD (p % 4) 0 else cb.getD p 0 := by
  rw [range_six]
  simp only [List.foldl]
  rw [color_offset_eq si 0 (by omega) hsi, color_offset_eq si 1 (by omega) hsi,
    color_offset_eq si 2 (by omega) hsi, color_offset_eq si 3 (by omega) hsi,
    color_offset_eq si 4 (by omega) hsi, color_offset_eq si 5 (by omega) hsi]
  rw [memcpy_getD 0 _ _ _ _ (by simpa [memcpy_length] using hp),
    memcpy_getD 0 _ _ _ _ (by simpa [memcpy_length] using hp),
    memcpy_getD 0 _ _ _ _ (by simpa [memcpy_length] using hp),
    memcpy_getD 0 _ _ _ _ (by simpa [memcpy_length] using hp),
    memcpy_getD 0 _ _ _ _ (by simpa [memcpy_length] using hp),
    memcpy_getD 0 _ _ _ _ hp, hc]
  split_ifs <;> first | rfl | (exfalso; omega) | (congr 1; omega)

theorem cell_index_eq (cy i j : Nat) (h : i * cy + j < 2 ^ 32) :
    cell_index cy i j = i * cy + j := toU32_natCast _ h

theorem dispatched_succ (cy : Nat) (lay : Layout) (mx my : Int) (mp0 : Int) (k : Nat) :
    dispatched cy lay mx my mp0 (k + 1) =
      (dispatched cy lay mx my mp0 k).or
        (if mp0 ≠ 0 ∧ cell_hovered cy lay mx my k = true then some k else none) := by
  unfold dispatched
  by_cases h : mp0 ≠ 0
  · simp only [h, if_true, true_and, ne_eq, not_false_eq_true]
    rw [List.range_succ, List.find?_append, List.find?_singleton]
  · simp [h]

theorem scene_inv_step (cx cy : Nat) (conns : List Nat) (lay : Layout) (mx my : Int)
    (sc0 : Scene) (hsz : cx * cy * 24 < 2 ^ 32) (i j : Nat) (hi : i < cx) (hj : j < cy)
    (sc : Scene) (h : scene_inv cy conns lay mx my sc0 (i * cy + j) sc) :
    scene_inv cy conns lay mx my sc0 (i * cy + j + 1)
      (update_cell cy conns lay mx my i j sc) := by
  obtain ⟨hpk, hbd, hmp, hlen, hcol⟩ := h
  have hk := idx_lt hi hj
  have hsi : cell_index cy i j = i * cy + j := cell_index_eq cy i j (by omega)
  have hhov : hover_test lay (mx : ℚ) (my : ℚ) i j = cell_hovered cy lay mx my (i * cy + j) := by
    unfold cell_hovered
    rw [idx_div hj, idx_mod hj]
  have hds := dispatched_succ cy lay mx my sc0.mouse_pressed (i * cy + j)
  unfold update_cell scene_inv
  simp only [hsi, hhov]
  generalize hd : dispatched cy lay mx my sc0.mouse_pressed (i * cy + j) = d at *
  generalize hd' : dispatched cy lay mx my sc0.mouse_pressed (i * cy + j + 1) = d' at *
  generalize hb : cell_hovered cy lay mx my (i * cy + j) = b at *
  -- the control part: dispatch, board, latch
  have hctl : ∀ sc1 : Scene,
      sc1 = (if b = true ∧ sc.mouse_pressed ≠ 0 then
        { sc with
          mouse_pressed := 0
          board_state := poke (i * cy + j) sc.board_state conns
          pokes := sc.pokes ++ [i * cy + j] } else sc) →
      sc1.pokes = sc0.pokes ++ d'.toList ∧
      sc1.board_state = board_after conns sc0.board_state d' ∧
      sc1.mouse_pressed = (if d'.isSome then 0 else sc0.mouse_pressed) ∧
      sc1.color_buffer = sc.color_buffer := by
    intro sc1 hsc1
    by_cases hc : b = true ∧ sc.mouse_pressed ≠ 0
    · rw [if_pos hc] at hsc1
      have hdn : d = none := by
        cases d with
        | none => rfl
        | some t => simp [hmp] at hc
      have hm0 : sc0.mouse_pressed ≠ 0 := by
        intro h0
        rw [hmp, hdn] at hc
        simp [h0] at hc
      have hd'e : d' = some (i * cy + j) := by
        rw [hds, hdn]
        simp [hm0, hc.1]
      subst hsc1
      rw [hdn] at hpk hbd
      simp [hd'e, hpk, hbd, board_after]
    · rw [if_neg hc] at hsc1
      have hd'e : d' = d := by
        rw [hds]
        cases d with
        | some t => rfl
        | none =>
          by_cases hm0 : sc0.mouse_pressed ≠ 0
          · have : sc.mouse_pressed ≠ 0 := by rw [hmp]; simpa using hm0
            have hbf : ¬ b = true := fun hb1 => hc ⟨hb1, this⟩
            simp [hbf]
          · simp [hm0]
      subst hsc1
      rw [hd'e]
      exact ⟨hpk, hbd, hmp, rfl⟩
  obtain ⟨c1, c2, c3, c4⟩ := hctl _ rfl
  refine ⟨c1, c2, c3, ?_, ?_⟩
  · simp only [color_fill_length]
    rw [c4, hlen]
  · intro p hp hp0
    rw [color_fill_getD _ _ _ (by rfl) (by omega) p (by rw [c4, hlen]; exact hp0), c4]
    by_cases hin : (i * cy + j) * 24 ≤ p ∧ p < (i * cy + j) * 24 + 24
    · have hp24 : p / 24 = i * cy + j := by omega
      rw [if_pos hin, hp24, hd', hb, c2]
      rfl
    · rw [if_neg hin]
      exact hcol p (by omega) hp0

/-- The colour loop, start to end: which toggle it dispatched, the board and the latch
it leaves, and every byte of the colour buffer. -/
theorem update_scene_inv (cx cy : Nat) (conns : List Nat) (lay : Layout) (mx my : Int)
    (sc0 : Scene) (hsz : cx * cy * 24 < 2 ^ 32) :
    scene_inv cy conns lay mx my sc0 (cx * cy) (update_scene cx cy conns lay mx my sc0) := by
  unfold update_scene
  apply scan_inv (fun i j sc => update_cell cy conns lay mx my i j sc)
    (fun k sc => scene_inv cy conns lay mx my sc0 k sc)
  · refine ⟨?_, ?_, ?_, rfl, fun p hp => absurd hp (by omega)⟩
    · simp [dispatched]
    · simp [dispatched, board_after]
    · simp [dispatched]
  · intro i j s hi hj hP
    exact scene_inv_step cx cy conns lay mx my sc0 hsz i j hi hj s hP

theorem dispatched_eq_some (cy : Nat) (lay : Layout) (mx my : Int) (mp0 : Int) (n t : Nat) :
    dispatched cy lay mx my mp0 n = some t ↔
      mp0 ≠ 0 ∧ t < n ∧ cell_hovered cy lay mx my t = true ∧
        ∀ c, c < t → cell_hovered cy lay mx my c = false := by
  unfold dispatched
  by_cases h : mp0 ≠ 0
  · simp only [h, if_true, List.find?_range_eq_some, List.mem_range, true_and,
      ne_eq, not_false_eq_true, Bool.not_eq_true']
    tauto
  · simp [h]

theorem dispatched_eq_none (cy : Nat) (lay : Layout) (mx my : Int) (mp0 : Int) (n : Nat) :
    dispatched cy lay mx my mp0 n = none ↔
      mp0 = 0 ∨ ∀ c, c < n → cell_hovered cy lay mx my c = false := by
  unfold dispatched
  by_cases h : mp0 ≠ 0
  · rw [if_pos h, List.find?_eq_none]
    constructor
    · intro a
      right
      intro c hc
      simpa using a c (List.mem_range.2 hc)
    · rintro (a | a)
      · exact absurd a h
      · intro x hx
        simp [a x (List.mem_range.1 hx)]
  · have : mp0 = 0 := by simpa using h
    simp [this]

/-- While the loop scans, the dispatch known after cell `c` is the final one if the
toggled cell has been passed, and none before. -/
theorem dispatched_prefix (cy : Nat) (lay : Layout) (mx my : Int) (mp0 : Int) (n c : Nat)
    (hc : c < n) :
    dispatched cy lay mx my mp0 (c + 1) =
      match dispatched cy lay mx my mp0 n with
      | none => none
      | some t => if t ≤ c then some t else none := by
  cases hd : dispatched cy lay mx my mp0 n with
  | none =>
    simp only
    rw [dispatched_eq_none] at hd ⊢
    rcases hd with h | h
    · exact Or.inl h
    · exact Or.inr (fun k hk => h k (by omega))
  | some t =>
    simp only
    rw [dispatched_eq_some] at hd
    obtain ⟨h1, h2, h3, h4⟩ := hd
    by_cases htc : t ≤ c
    · rw [if_pos htc, dispatched_eq_some]
      exact ⟨h1, by omega, h3, h4⟩
    · rw [if_neg htc, dispatched_eq_none]
      exact Or.inr (fun k hk => h4 k (by omega))

/-- The colour loop on the variables of `main`, in terms of the toggle it dispatches. -/
theorem update_spec (g : Game) (hsz : g.cells_x * g.cells_y * 24 < 2 ^ 32) :
    g.update.pokes =
      (dispatched g.cells_y g.layout g.mouse_x g.mouse_y g.mouse_pressed
        (g.cells_x * g.cells_y)).toList ∧
    g.update.board_state = board_after g.connections g.board_state
      (dispatched g.cells_y g.layout g.mouse_x g.mouse_y g.mouse_pressed
        (g.cells_x * g.cells_y)) ∧
    g.update.mouse_pressed =
      (if (dispatched g.cells_y g.layout g.mouse_x g.mouse_y g.mouse_pressed
        (g.cells_x * g.cells_y)).isSome then 0 else g.mouse_pressed) ∧
    g.update.color_buffer.length = g.color_buffer.length ∧
    ∀ p, p < g.cells_x * g.cells_y * 24 → p < g.color_buffer.length →
      g.update.color_buffer.getD p 0 =
        (cell_color (cell_hovered g.cells_y g.layout g.mouse_x g.mouse_y (p / 24))
          ((board_after g.connections g.board_state
            (dispatched g.cells_y g.layout g.mouse_x g.mouse_y g.mouse_pressed
              (p / 24 + 1))).getD (p / 24) 0)).getD (p % 4) 0 := by
  have h := update_scene_inv g.cells_x g.cells_y g.connections g.layout g.mouse_x g.mouse_y
    g.scene hsz
  unfold scene_inv at h
  simpa only [Game.scene, List.nil_append] using h

theorem update_pokes (g : Game) (hsz : g.cells_x * g.cells_y * 24 < 2 ^ 32) :
    g.update.pokes =
      (dispatched g.cells_y g.layout g.mouse_x g.mouse_y g.mouse_pressed
        (g.cells_x * g.cells_y)).toList := by
  exact (update_spec g hsz).1

theorem update_pokes_nil (g : Game) (hsz : g.cells_x * g.cells_y * 24 < 2 ^ 32) :
    g.update.pokes = [] ↔
      dispatched g.cells_y g.layout g.mouse_x g.mouse_y g.mouse_pressed
        (g.cells_x * g.cells_y) = none := by
  rw [update_pokes g hsz]
  cases dispatched g.cells_y g.layout g.mouse_x g.mouse_y g.mouse_pressed
    (g.cells_x * g.cells_y) <;> simp

theorem update_pokes_single (g : Game) (hsz : g.cells_x * g.cells_y * 24 < 2 ^ 32) (t : Nat) :
    g.update.pokes = [t] ↔
      dispatched g.cells_y g.layout g.mouse_x g.mouse_y g.mouse_pressed
        (g.cells_x * g.cells_y) = some t := by
  rw [update_pokes g hsz]
  cases dispatched g.cells_y g.layout g.mouse_x g.mouse_y g.mouse_pressed
    (g.cells_x * g.cells_y) <;> simp

/-- Every byte of the colour buffer after the colour loop: the colour of its cell,
computed from the board as it was when the loop visited that cell. -/
theorem update_color_getD (g : Game) (hsz : g.cells_x * g.cells_y * 24 < 2 ^ 32)
    (hlen : g.color_buffer.length = g.cells_x * g.cells_y * 24)
    (i j q : Nat) (hi : i < g.cells_x) (hj : j < g.cells_y) (hq : q < 24) :
    g.update.color_buffer.getD ((i * g.cells_y + j) * 24 + q) 0 =
      (cell_color (hover_test g.layout (g.mouse_x : ℚ) (g.mouse_y : ℚ) i j)
        ((match dispatched g.cells_y g.layout g.mouse_x g.mouse_y g.mouse_pressed
            (g.cells_x * g.cells_y) with
          | none => g.board_state
          | some t => if t ≤ i * g.cells_y + j then g.update.board_state
              else g.board_state).getD (i * g.cells_y + j) 0)).getD (q % 4) 0 := by
  obtain ⟨_, hbd, _, _, hcol⟩ := update_spec g hsz
  have hk := idx_lt hi hj
  have h := hcol ((i * g.cells_y + j) * 24 + q) (by omega) (by rw [hlen]; omega)
  have e1 : ((i * g.cells_y + j) * 24 + q) / 24 = i * g.cells_y + j := by omega
  have e2 : ((i * g.cells_y + j) * 24 + q) % 4 = q % 4 := by omega
  rw [e1, e2, dispatched_prefix _ _ _ _ _ _ _ hk] at h
  rw [h]
  unfold cell_hovered
  rw [idx_div hj, idx_mod hj]
  cases hd : dispatched g.cells_y g.layout g.mouse_x g.mouse_y g.mouse_pressed
      (g.cells_x * g.cells_y) with
  | none => rfl
  | some t =>
    rw [hd] at hbd
    simp only
    by_cases htc : t ≤ i * g.cells_y + j
    · rw [if_pos htc, if_pos htc, hbd]
    · rw [if_neg htc, if_neg htc]
      rfl

theorem lit_iff (b : Nat) : lit b = true ↔ b ≠ 0 := by
  simp [lit]

theorem cell_color_eq (hov : Bool) (b : Nat) :
    cell_color hov b =
      [if hov = true then 155 else 0, if lit b = true then 255 else 0,
        if hov = true then 0 else 155, 255] := by
  unfold cell_color
  simp only [lit_iff]

theorem color_write_unique (cx cy p : Nat) (hsz : cx * cy * 24 < 2 ^ 32) (hp : p < cx * cy * 24) :
    ∃! q : Nat × Nat × Nat × Nat, q.1 < cx ∧ q.2.1 < cy ∧ q.2.2.1 < 6 ∧ q.2.2.2 < 4 ∧
      color_offset (cell_index cy q.1 q.2.1) q.2.2.1 + q.2.2.2 = p := by
  have hoff : ∀ i j v, i < cx → j < cy → v < 6 →
      color_offset (cell_index cy i j) v = (i * cy + j) * 24 + v * 4 := by
    intro i j v hi hj hv
    have hk := idx_lt hi hj
    rw [cell_index_eq cy i j (by omega), color_offset_eq _ v hv (by omega)]
  have hc : p / 24 < cx * cy := by omega
  obtain ⟨h1, h2, h3⟩ := cell_coords hc
  have h4 : p % 24 / 4 < 6 := by omega
  have h5 : p % 4 < 4 := by omega
  refine ⟨(p / 24 / cy, p / 24 % cy, p % 24 / 4, p % 4), ⟨h1, h2, h4, h5, ?_⟩, ?_⟩
  · simp only
    rw [hoff _ _ _ h1 h2 (by omega), h3]
    omega
  · rintro ⟨i, j, v, c⟩ ⟨hi, hj, hv, hcc, he⟩
    simp only at hi hj hv hcc he
    rw [hoff i j v hi hj hv] at he
    have e1 : p / 24 = i * cy + j := by omega
    have e2 : p % 24 / 4 = v := by omega
    have e3 : p % 4 = c := by omega
    rw [e1, e2, e3, idx_div hj, idx_mod hj]

/-- C9 (colour synthesis). In a frame that dispatches no toggle (a colour buffer of
`cells_x * cells_y * 24` bytes, that size fitting an `unsigned int`) the board is left as
it is and the colour buffer holds, for each cell `(i, j)`, `si = i * cells_y + j`, and
each vertex `v < 6`, at byte offset `si * 24 + 4 * v` the quadruple `R = 155` if the cell
is hovered else 0, `G = 255` if cell `si` is lit else 0, `B = 0` if hovered else 155,
`A = 255`; each byte of the buffer is written by exactly one (cell, vertex, channel). -/
theorem color_synthesis (g : Game) (hsz : g.cells_x * g.cells_y * 24 < 2 ^ 32)
    (hlen : g.color_buffer.length = g.cells_x * g.cells_y * 24)
    (hno : g.update.pokes = []) :
    g.update.board_state = g.board_state ∧
    g.update.color_buffer.length = g.cells_x * g.cells_y * 24 ∧
    (∀ i j v, i < g.cells_x → j < g.cells_y → v < 6 →
      color_offset (cell_index g.cells_y i j) v = (i * g.cells_y + j) * 24 + 4 * v ∧
      (g.update.color_buffer.drop ((i * g.cells_y + j) * 24 + 4 * v)).take 4 =
        [if hover_test g.layout (g.mouse_x : ℚ) (g.mouse_y : ℚ) i j = true then 155 else 0,
         if lit (g.board_state.getD (i * g.cells_y + j) 0) = true then 255 else 0,
         if hover_test g.layout (g.mouse_x : ℚ) (g.mouse_y : ℚ) i j = true then 0 else 155,
         255]) ∧
    (∀ p, p < g.cells_x * g.cells_y * 24 →
      ∃! q : Nat × Nat × Nat × Nat, q.1 < g.cells_x ∧ q.2.1 < g.cells_y ∧ q.2.2.1 < 6 ∧
        q.2.2.2 < 4 ∧ color_offset (cell_index g.cells_y q.1 q.2.1) q.2.2.1 + q.2.2.2 = p) := by
  have hd := (update_pokes_nil g hsz).1 hno
  obtain ⟨_, hbd, _, hl, _⟩ := update_spec g hsz
  rw [hd] at hbd
  refine ⟨hbd, by rw [hl, hlen], ?_, fun p hp => color_write_unique _ _ p hsz hp⟩
  intro i j v hi hj hv
  have hk := idx_lt hi hj
  constructor
  · rw [cell_index_eq _ i j (by omega), color_offset_eq _ v hv (by omega)]
    omega
  · rw [← cell_color_eq]
    have hb : (i * g.cells_y + j) * 24 + 4 * v +
        (cell_color (hover_test g.layout (g.mouse_x : ℚ) (g.mouse_y : ℚ) i j)
          (g.board_state.getD (i * g.cells_y + j) 0)).length ≤ g.update.color_buffer.length := by
      rw [hl, hlen]
      show _ + 4 ≤ _
      omega
    refine take_drop_eq_of_getD 0 g.update.color_buffer _ _ hb ?_
    intro t ht
    have ht4 : t < 4 := ht
    have h := update_color_getD g hsz hlen i j (4 * v + t) hi hj (by omega)
    rw [hd] at h
    have e : (4 * v + t) % 4 = t := by omega
    rw [e, ← Nat.add_assoc] at h
    exact h

/-- Instance of `color_synthesis`: the first frame of `main` (5x5 grid, nothing pressed) writes
`(0, 0, 155, 255)` for the unlit, unhovered cell `(1, 1)`. -/
theorem color_synthesis_witness :
    (init.update.color_buffer.drop ((1 * init.cells_y + 1) * 24 + 4 * 0)).take 4 =
      [if hover_test init.layout (init.mouse_x : ℚ) (init.mouse_y : ℚ) 1 1 = true then 155 else 0,
       if lit (init.board_state.getD (1 * init.cells_y + 1) 0) = true then 255 else 0,
       if hover_test init.layout (init.mouse_x : ℚ) (init.mouse_y : ℚ) 1 1 = true then 0 else 155,
       255] :=
  ((color_synthesis init (by decide) (by decide!) (by decide!)).2.2.1 1 1 0
    (by decide) (by decide) (by decide)).2

/-! ## Toggle dispatch across frames -/

theorem handle_event_fields (g : Game) (e : Event) :
    (handle_event g e).board_state = g.board_state ∧
    (handle_event g e).cells_x = g.cells_x ∧
    (handle_event g e).cells_y = g.cells_y ∧
    (handle_event g e).connections = g.connections ∧
    (handle_event g e).mouse_x = g.mouse_x ∧
    (handle_event g e).mouse_y = g.mouse_y ∧
    (handle_event g e).mouse_pressed =
      (if e = Event.mouse_button_up then 1 else g.mouse_pressed) ∧
    (handle_event g e).color_buffer = g.color_buffer := by
  cases e with
  | key_down is_f =>
    unfold handle_event
    by_cases h1 : is_f = true <;> by_cases h2 : g.fullscreen ≠ 0 <;> simp [h1, h2]
  | _ => simp [handle_event]

theorem events_fields (evs : List Event) : ∀ g : Game,
    (evs.foldl handle_event g).board_state = g.board_state ∧
    (evs.foldl handle_event g).cells_x = g.cells_x ∧
    (evs.foldl handle_event g).cells_y = g.cells_y ∧
    (evs.foldl handle_event g).connections = g.connections ∧
    (evs.foldl handle_event g).mouse_x = g.mouse_x ∧
    (evs.foldl handle_event g).mouse_y = g.mouse_y ∧
    (evs.foldl handle_event g).mouse_pressed =
      (if Event.mouse_button_up ∈ evs then 1 else g.mouse_pressed) ∧
    (evs.foldl handle_event g).color_buffer = g.color_buffer := by
  induction evs with
  | nil => intro g; simp
  | cons e es ih =>
    intro g
    obtain ⟨a1, a2, a3, a4, a5, a6, a7, a8⟩ := ih (handle_event g e)
    obtain ⟨b1, b2, b3, b4, b5, b6, b7, b8⟩ := handle_event_fields g e
    simp only [List.foldl]
    refine ⟨a1.trans b1, a2.trans b2, a3.trans b3, a4.trans b4, a5.trans b5, a6.trans b6, ?_,
      a8.trans b8⟩
    rw [a7, b7]
    by_cases h1 : Event.mouse_button_up ∈ es
    · simp [h1]
    · by_cases h2 : e = Event.mouse_button_up
      · simp [h2]
      · have h3 : ¬ Event.mouse_button_up = e := fun h => h2 h.symm
        simp [h1, h2, h3]

/-- What one iteration of the main loop leaves in the variables the toggle dispatch
depends on. -/
theorem iteration_fields (g : Game) (inp : Input) :
    (iteration g inp).board_state = g.update.board_state ∧
    (iteration g inp).cells_x = g.cells_x ∧
    (iteration g inp).cells_y = g.cells_y ∧
    (iteration g inp).connections = g.connections ∧
    (iteration g inp).mouse_x = inp.mouse_x ∧
    (iteration g inp).mouse_y = inp.mouse_y ∧
    (iteration g inp).mouse_pressed =
      (if Event.mouse_button_up ∈ inp.events then 1 else g.update.mouse_pressed) ∧
    (iteration g inp).color_buffer = g.update.color_buffer := by
  unfold iteration
  exact events_fields inp.events _

/-- On entry of every iteration `main` can reach, the grid is 5x5 and the colour buffer
has its 600 bytes: the size hypotheses of the theorems below hold there. -/
theorem reachable_inv (g : Game) (h : Reachable g) :
    g.cells_x = 5 ∧ g.cells_y = 5 ∧ g.color_buffer.length = 600 := by
  obtain ⟨inputs, rfl⟩ := h
  have key : ∀ (l : List Input) (g0 : Game),
      (g0.cells_x = 5 ∧ g0.cells_y = 5 ∧ g0.color_buffer.length = 600) →
      ((run g0 l).cells_x = 5 ∧ (run g0 l).cells_y = 5 ∧
        (run g0 l).color_buffer.length = 600) := by
    intro l
    induction l with
    | nil => intro g0 h0; exact h0
    | cons a l ih =>
      intro g0 h0
      unfold run
      by_cases hq : g0.quit ≠ 0
      · rw [if_pos hq]; exact h0
      · rw [if_neg hq]
        apply ih
        obtain ⟨f1, f2, f3, f4, f5, f6, f7, f8⟩ := iteration_fields g0 a
        have hsz : g0.cells_x * g0.cells_y * 24 < 2 ^ 32 := by
          rw [h0.1, h0.2.1]; decide
        obtain ⟨_, _, _, hl, _⟩ := update_spec g0 hsz
        exact ⟨f2.trans h0.1, f3.trans h0.2.1, by rw [f8, hl]; exact h0.2.2⟩
  exact key inputs init ⟨rfl, rfl, by decide!⟩

theorem update_idle (g : Game) (hsz : g.cells_x * g.cells_y * 24 < 2 ^ 32)
    (h0 : g.mouse_pressed = 0) :
    g.update.pokes = [] ∧ g.update.board_state = g.board_state ∧ g.update.mouse_pressed = 0 := by
  obtain ⟨hpk, hbd, hmp, _, _⟩ := update_spec g hsz
  have hd : dispatched g.cells_y g.layout g.mouse_x g.mouse_y g.mouse_pressed
      (g.cells_x * g.cells_y) = none := (dispatched_eq_none _ _ _ _ _ _).2 (Or.inl h0)
  rw [hd] at hpk hbd hmp
  exact ⟨hpk, hbd, by simpa [h0] using hmp⟩

theorem poke_trace_append (l1 : List Input) : ∀ (g : Game) (l2 : List Input),
    poke_trace g (l1 ++ l2) = poke_trace g l1 ++ poke_trace (l1.foldl iteration g) l2 := by
  induction l1 with
  | nil => intro g l2; rfl
  | cons a l ih =>
    intro g l2
    show g.update.pokes ++ poke_trace (iteration g a) (l ++ l2) = _
    rw [ih]
    simp only [poke_trace, List.foldl, List.append_assoc]

/-- Frames whose polls see no release, entered with the latch clear: no toggle is
dispatched, the board and the latch stay as they are. -/
theorem hold_frames (holds : List Input) : ∀ g : Game,
    g.cells_x * g.cells_y * 24 < 2 ^ 32 → g.mouse_pressed = 0 →
    (∀ inp, inp ∈ holds → Event.mouse_button_up ∉ inp.events) →
    poke_trace g holds = [] ∧
    (holds.foldl iteration g).board_state = g.board_state ∧
    (holds.foldl iteration g).mouse_pressed = 0 ∧
    (holds.foldl iteration g).cells_x = g.cells_x ∧
    (holds.foldl iteration g).cells_y = g.cells_y ∧
    (holds.foldl iteration g).connections = g.connections := by
  induction holds with
  | nil => intro g _ h0 _; exact ⟨rfl, rfl, h0, rfl, rfl, rfl⟩
  | cons a l ih =>
    intro g hsz h0 hno
    obtain ⟨u1, u2, u3⟩ := update_idle g hsz h0
    obtain ⟨f1, f2, f3, f4, _, _, f7, _⟩ := iteration_fields g a
    have ha : Event.mouse_button_up ∉ a.events := hno a (List.mem_cons_self _ _)
    rw [if_neg ha, u3] at f7
    obtain ⟨i1, i2, i3, i4, i5, i6⟩ := ih (iteration g a) (by rw [f2, f3]; exact hsz) f7
      (fun inp hin => hno inp (List.mem_cons_of_mem _ hin))
    simp only [poke_trace, List.foldl]
    refine ⟨by rw [u1, i1]; rfl, by rw [i2, f1, u2], i3, by rw [i4, f2], by rw [i5, f3],
      by rw [i6, f4]⟩

/-- C5, the claim as stated fails. On the program as `main` sets it up:
two press-release cycles polled together over cell 0 dispatch one toggle, not two;
a click in the padding is followed by a frame that dispatches nothing although it is
the frame that detects the release, and the frame after that, entered with the button
held down over cell 0 and no release polled, dispatches a toggle of cell 0 and changes
the grid; releasing then toggles cell 0 a second time. -/
theorem click_latch_counterexample :
    poke_trace init [double_click_on_cell] ++ (run init [double_click_on_cell]).update.pokes
      = [0] ∧
    (run init [click_in_padding]).update.pokes = [] ∧
    (run init [click_in_padding, press_on_cell]).mouse_down = 1 ∧
    Event.mouse_button_up ∉ press_on_cell.events ∧
    (run init [click_in_padding, press_on_cell]).update.pokes = [0] ∧
    (run init [click_in_padding, press_on_cell]).update.board_state ≠
      (run init [click_in_padding, press_on_cell]).board_state ∧
    poke_trace init [click_in_padding, press_on_cell, release_on_cell] ++
      (run init [click_in_padding, press_on_cell, release_on_cell]).update.pokes = [0, 0] := by
  decide!

/-- C5 amended (flag-triggered click-to-toggle). For every state of the main loop (the
colour buffer size fitting an `unsigned int`, as in every reachable state):
a frame dispatches at most one toggle, and one that dispatches none leaves the grid as
it is; a toggle is dispatched for `t` exactly when `mouse_pressed` is set on entry and
`t` is the first hovered cell in scan order, and then the board is `poke t` of the old
one and `mouse_pressed` is cleared; a frame entered with `mouse_pressed` clear dispatches
none and leaves it clear, whatever `mouse_down` is; polling keeps the grid and sets
`mouse_pressed` exactly when at least one release is among the polled events.  So,
entered with `mouse_pressed` clear, any number of frames without a release dispatch
nothing, and once a release is polled the next frame toggles the first hovered cell,
once. -/
theorem click_latch (g : Game) (hsz : g.cells_x * g.cells_y * 24 < 2 ^ 32) :
    (g.update.pokes = [] ∨ ∃ t, g.update.pokes = [t]) ∧
    (g.update.pokes = [] → g.update.board_state = g.board_state) ∧
    (∀ t, g.update.pokes = [t] ↔
      g.mouse_pressed ≠ 0 ∧ t < g.cells_x * g.cells_y ∧
        cell_hovered g.cells_y g.layout g.mouse_x g.mouse_y t = true ∧
        ∀ c, c < t → cell_hovered g.cells_y g.layout g.mouse_x g.mouse_y c = false) ∧
    (∀ t, g.update.pokes = [t] →
      g.update.board_state = poke t g.board_state g.connections ∧
        g.update.mouse_pressed = 0) ∧
    (g.mouse_pressed = 0 → g.update.pokes = [] ∧ g.update.mouse_pressed = 0) ∧
    (∀ inp, (iteration g inp).board_state = g.update.board_state ∧
      (iteration g inp).mouse_pressed =
        (if Event.mouse_button_up ∈ inp.events then 1 else g.update.mouse_pressed)) ∧
    (g.mouse_pressed = 0 → ∀ (holds : List Input) (r : Input),
      (∀ inp, inp ∈ holds → Event.mouse_button_up ∉ inp.events) →
      Event.mouse_button_up ∈ r.events →
      poke_trace g (holds ++ [r]) = [] ∧
      ((holds ++ [r]).foldl iteration g).board_state = g.board_state ∧
      ((holds ++ [r]).foldl iteration g).mouse_pressed = 1 ∧
      ∀ t, t < g.cells_x * g.cells_y →
        cell_hovered g.cells_y ((holds ++ [r]).foldl iteration g).layout r.mouse_x r.mouse_y t
          = true →
        (∀ c, c < t →
          cell_hovered g.cells_y ((holds ++ [r]).foldl iteration g).layout r.mouse_x r.mouse_y c
            = false) →
        ((holds ++ [r]).foldl iteration g).update.pokes = [t] ∧
        ((holds ++ [r]).foldl iteration g).update.board_state =
          poke t g.board_state g.connections) := by
  obtain ⟨hpk, hbd, hmp, _, _⟩ := update_spec g hsz
  refine ⟨?_, ?_, ?_, ?_,
    fun h0 => ⟨(update_idle g hsz h0).1, (update_idle g hsz h0).2.2⟩, ?_, ?_⟩
  · rw [hpk]
    cases dispatched g.cells_y g.layout g.mouse_x g.mouse_y g.mouse_pressed
      (g.cells_x * g.cells_y) with
    | none => exact Or.inl rfl
    | some t => exact Or.inr ⟨t, rfl⟩
  · intro hno
    have hd := (update_pokes_nil g hsz).1 hno
    rw [hd] at hbd
    exact hbd
  · intro t
    rw [update_pokes_single g hsz, dispatched_eq_some]
  · intro t ht
    have hd := (update_pokes_single g hsz t).1 ht
    rw [hd] at hbd hmp
    exact ⟨hbd, by simpa using hmp⟩
  · intro inp
    obtain ⟨f1, _, _, _, _, _, f7, _⟩ := iteration_fields g inp
    exact ⟨f1, f7⟩
  · intro h0 holds r hno hr
    obtain ⟨i1, i2, i3, i4, i5, i6⟩ := hold_frames holds g hsz h0 hno
    have hsz2 : (holds.foldl iteration g).cells_x * (holds.foldl iteration g).cells_y * 24
        < 2 ^ 32 := by rw [i4, i5]; exact hsz
    obtain ⟨u1, u2, u3⟩ := update_idle (holds.foldl iteration g) hsz2 i3
    obtain ⟨f1, f2, f3, f4, f5, f6, f7, _⟩ := iteration_fields (holds.foldl iteration g) r
    have hfold : (holds ++ [r]).foldl iteration g = iteration (holds.foldl iteration g) r := by
      rw [List.foldl_append]; rfl
    rw [hfold]
    rw [if_pos hr] at f7
    refine ⟨?_, by rw [f1, u2, i2], f7, ?_⟩
    · rw [poke_trace_append]
      simp only [poke_trace, List.append_nil]
      rw [i1, u1]; rfl
    · intro t ht hh hfirst
      have hsz3 : (iteration (holds.foldl iteration g) r).cells_x *
          (iteration (holds.foldl iteration g) r).cells_y * 24 < 2 ^ 32 := by
        rw [f2, f3]; exact hsz2
      obtain ⟨_, hbd3, _, _, _⟩ := update_spec (iteration (holds.foldl iteration g) r) hsz3
      have hd : dispatched (iteration (holds.foldl iteration g) r).cells_y
          (iteration (holds.foldl iteration g) r).layout
          (iteration (holds.foldl iteration g) r).mouse_x
          (iteration (holds.foldl iteration g) r).mouse_y
          (iteration (holds.foldl iteration g) r).mouse_pressed
          ((iteration (holds.foldl iteration g) r).cells_x *
            (iteration (holds.foldl iteration g) r).cells_y) = some t := by
        rw [dispatched_eq_some, f2, f3, f5, f6, f7, i4, i5]
        exact ⟨by decide, ht, hh, hfirst⟩
      rw [hd] at hbd3
      refine ⟨(update_pokes_single _ hsz3 t).2 hd, ?_⟩
      rw [hbd3, f1, u2, i2, f4, i6]
      rfl

/-- Instance of `click_latch`: the first frame of `main`, entered with `mouse_pressed` clear, dispatches no toggle. -/
theorem click_latch_witness : init.update.pokes = [] ∧ init.update.mouse_pressed = 0 :=
  (click_latch init (by decide)).2.2.2.2.1 (by decide)

/-- C6, the claim as stated fails. On the program as `main` sets it up, the frame
after a click on the centre cell 12 toggles it; cells 7 and 11, its neighbours of
smaller index, are lit after the toggle but their green byte written by that frame
is 0. -/
theorem toggle_color_counterexample :
    (run init [click_centre]).update.pokes = [12] ∧
    lit ((run init [click_centre]).update.board_state.getD 7 0) = true ∧
    (run init [click_centre]).update.color_buffer.getD (7 * 24 + 4 * 0 + 1) 0 = 0 ∧
    lit ((run init [click_centre]).update.board_state.getD 11 0) = true ∧
    (run init [click_centre]).update.color_buffer.getD (11 * 24 + 4 * 0 + 1) 0 = 0 := by
  obtain ⟨hcx, hcy, hl⟩ := reachable_inv (run init [click_centre]) ⟨_, rfl⟩
  have hsz : (run init [click_centre]).cells_x * (run init [click_centre]).cells_y * 24
      < 2 ^ 32 := by rw [hcx, hcy]; decide
  have hlen : (run init [click_centre]).color_buffer.length =
      (run init [click_centre]).cells_x * (run init [click_centre]).cells_y * 24 := by
    rw [hcx, hcy, hl]
  have hp : (run init [click_centre]).update.pokes = [12] := by decide!
  have hd := (update_pokes_single _ hsz 12).1 hp
  have h7 := update_color_getD _ hsz hlen 1 2 1 (by rw [hcx]; decide) (by rw [hcy]; decide)
    (by decide)
  have h11 := update_color_getD _ hsz hlen 2 1 1 (by rw [hcx]; decide) (by rw [hcy]; decide)
    (by decide)
  rw [hd, hcy] at h7 h11
  have hb7 : (run init [click_centre]).board_state.getD 7 0 = 0 := by decide!
  have hb11 : (run init [click_centre]).board_state.getD 11 0 = 0 := by decide!
  refine ⟨hp, by decide!, ?_, by decide!, ?_⟩
  · rw [show 7 * 24 + 4 * 0 + 1 = (1 * 5 + 2) * 24 + 1 from rfl, h7]
    simp only [show ¬ (12 ≤ 1 * 5 + 2) by decide, if_false]
    rw [show 1 * 5 + 2 = 7 from rfl, hb7]
    rfl
  · rw [show 11 * 24 + 4 * 0 + 1 = (2 * 5 + 1) * 24 + 1 from rfl, h11]
    simp only [show ¬ (12 ≤ 2 * 5 + 1) by decide, if_false]
    rw [show 2 * 5 + 1 = 11 from rfl, hb11]
    rfl

/-- C6 amended (toggle inside the colour loop). In a frame that dispatches a toggle for
cell `t` (a colour buffer of `cells_x * cells_y * 24` bytes, that size fitting an
`unsigned int`) the board after the frame is `poke t` of the board before it, and the
green byte the frame stores for vertex `v` of cell `si = i * cells_y + j` is 255 or 0
according to whether `si` is lit after the toggle when `si ≥ t`, and according to
whether it was lit before the toggle when `si < t`. -/
theorem toggle_color_order (g : Game) (hsz : g.cells_x * g.cells_y * 24 < 2 ^ 32)
    (hlen : g.color_buffer.length = g.cells_x * g.cells_y * 24)
    (t : Nat) (ht : g.update.pokes = [t]) :
    g.update.board_state = poke t g.board_state g.connections ∧
    ∀ i j v, i < g.cells_x → j < g.cells_y → v < 6 →
      g.update.color_buffer.getD ((i * g.cells_y + j) * 24 + 4 * v + 1) 0 =
        if i * g.cells_y + j < t then
          (if lit (g.board_state.getD (i * g.cells_y + j) 0) = true then 255 else 0)
        else
          (if lit (g.update.board_state.getD (i * g.cells_y + j) 0) = true then 255 else 0) := by
  have hd := (update_pokes_single g hsz t).1 ht
  obtain ⟨_, hbd, _, _, _⟩ := update_spec g hsz
  rw [hd] at hbd
  refine ⟨hbd, ?_⟩
  intro i j v hi hj hv
  have h := update_color_getD g hsz hlen i j (4 * v + 1) hi hj (by omega)
  rw [hd] at h
  have e : (4 * v + 1) % 4 = 1 := by omega
  rw [e, ← Nat.add_assoc, cell_color_eq] at h
  rw [h]
  simp only
  by_cases hlt : i * g.cells_y + j < t
  · have : ¬ t ≤ i * g.cells_y + j := by omega
    simp only [if_pos hlt, if_neg this]
    rfl
  · have : t ≤ i * g.cells_y + j := by omega
    simp only [if_neg hlt, if_pos this]
    rfl

/-- Instance of `toggle_color_order`: in the frame after a click on the centre cell of the 5x5 grid
the board is `poke 12` of the board before that frame. -/
theorem toggle_color_order_witness :
    (run init [click_centre]).update.board_state =
      poke 12 (run init [click_centre]).board_state (run init [click_centre]).connections :=
  (toggle_color_order (run init [click_centre]) (by decide!)
    (by rw [(reachable_inv _ ⟨_, rfl⟩).1, (reachable_inv _ ⟨_, rfl⟩).2.1,
      (reachable_inv _ ⟨_, rfl⟩).2.2])
    12 (by decide!)).1

end LightsOut
